import Mathlib

/-!
Verification of the overkill-pi overclocking / silicon-testing core.

The development shallowly embeds the relevant parts of
`overkill/hardware/overclock.py`, `overkill/hardware/silicon_tester.py`,
`overkill/hardware/thermal_monitor.py` and
`overkill/hardware/profile_creator.py`.

Configuration text is modelled as `List Char` (Python `str`).  Python's
substring search (`str.find`, `in`), `str.rstrip`, and the line-anchored
`re.sub` calls used by the code are modelled by executable functions on
`List Char` below.  Temperatures (Python floats) are modelled as rationals.
-/

namespace Overkill

/-- The characters of a string literal, the basic text datatype used here. -/
def chars (s : String) : List Char := s.data

/-! ### Substring search, as used by Python `str.find` / `in` -/

/-- Boolean prefix test on character lists. -/
def pfx : List Char → List Char → Bool
  | [], _ => true
  | _ :: _, [] => false
  | a :: as, b :: bs => a == b && pfx as bs

/-- Index of the first occurrence of `pat` in `s` (Python `s.find(pat)`),
`none` when there is no occurrence. -/
def findSub (pat : List Char) : List Char → Option Nat
  | [] => if pat = [] then some 0 else none
  | c :: rest => if pfx pat (c :: rest) then some 0 else (findSub pat rest).map (· + 1)

/-- Python's `pat in s`. -/
def hasSub (pat s : List Char) : Bool := (findSub pat s).isSome

theorem pfx_append_self (p t : List Char) : pfx p (p ++ t) = true := by
  induction p with
  | nil => rfl
  | cons a as ih => simp [pfx, ih]

theorem pfx_nil_right {p : List Char} (h : pfx p [] = true) : p = [] := by
  cases p with
  | nil => rfl
  | cons a as => simp [pfx] at h

theorem hasSub_cons (pat : List Char) (c : Char) (rest : List Char) :
    hasSub pat (c :: rest) = (pfx pat (c :: rest) || hasSub pat rest) := by
  by_cases h : pfx pat (c :: rest) = true
  · simp [hasSub, findSub, h]
  · simp only [Bool.not_eq_true] at h
    simp [hasSub, findSub, h, Option.isSome_map]

theorem hasSub_of_pfx {pat s : List Char} (h : pfx pat s = true) : hasSub pat s = true := by
  cases s with
  | nil => have := pfx_nil_right h; subst this; simp [hasSub, findSub]
  | cons c rest => simp [hasSub_cons, h]

theorem hasSub_append_right {pat : List Char} (xs : List Char) {ys : List Char}
    (h : hasSub pat ys = true) : hasSub pat (xs ++ ys) = true := by
  induction xs with
  | nil => simpa using h
  | cons x xs ih => simp [hasSub_cons, ih]

/-- A pattern starting with `c` can only occur in a string containing `c`. -/
theorem head_mem_of_hasSub {c : Char} {cs s : List Char}
    (h : hasSub (c :: cs) s = true) : c ∈ s := by
  induction s with
  | nil => simp [hasSub, findSub] at h
  | cons b bs ih =>
    rw [hasSub_cons, Bool.or_eq_true] at h
    rcases h with h | h
    · cases hcb : (c == b) with
      | true => simp_all
      | false => simp [pfx, hcb] at h
    · exact List.mem_cons_of_mem _ (ih h)

/-- An occurrence of a pattern starting with `c` inside `xs ++ ys`, where
`c` does not occur in `xs`, lies inside `ys`. -/
theorem hasSub_of_head_notin {c : Char} {cs xs ys : List Char} (hc : c ∉ xs)
    (h : hasSub (c :: cs) (xs ++ ys) = true) : hasSub (c :: cs) ys = true := by
  induction xs with
  | nil => simpa using h
  | cons x xs ih =>
    rw [List.cons_append, hasSub_cons, Bool.or_eq_true] at h
    rcases h with h | h
    · exfalso
      cases hcx : (c == x) with
      | true => exact hc (by simp_all)
      | false => simp [pfx, hcx] at h
    · exact ih (fun hm => hc (List.mem_cons_of_mem _ hm)) h

/-- An occurrence starting at the head either is a prefix or recurs in the tail. -/
theorem hasSub_cons_cases {pat : List Char} {b : Char} {bs : List Char}
    (h : hasSub pat (b :: bs) = true) :
    pfx pat (b :: bs) = true ∨ hasSub pat bs = true := by
  rw [hasSub_cons, Bool.or_eq_true] at h; exact h

/-- A newline-free pattern that is a prefix of `xs ++ '\n' :: ys` is a prefix of `xs`. -/
theorem pfx_of_pfx_append_nl {pat : List Char} (hnl : '\n' ∉ pat) :
    ∀ xs ys : List Char, pfx pat (xs ++ '\n' :: ys) = true → pfx pat xs = true := by
  induction pat with
  | nil => intro xs ys _; rfl
  | cons c cs ih =>
    intro xs ys h
    cases xs with
    | nil =>
      exfalso
      simp only [List.nil_append, pfx, Bool.and_eq_true, beq_iff_eq] at h
      exact hnl (h.1 ▸ List.mem_cons_self _ _)
    | cons x xs' =>
      simp only [List.cons_append, pfx, Bool.and_eq_true] at h ⊢
      exact ⟨h.1, ih (fun hm => hnl (List.mem_cons_of_mem _ hm)) xs' ys h.2⟩

/-- Occurrences of a nonempty newline-free pattern split at a newline. -/
theorem hasSub_append_nl_cases {pat : List Char} (hnl : '\n' ∉ pat) (hne : pat ≠ []) :
    ∀ xs ys : List Char, hasSub pat (xs ++ '\n' :: ys) = true →
      hasSub pat xs = true ∨ hasSub pat ys = true := by
  intro xs ys h
  induction xs with
  | nil =>
    right
    simp only [List.nil_append] at h
    rcases hasSub_cons_cases h with h | h
    · exfalso
      cases pat with
      | nil => exact hne rfl
      | cons c cs =>
        simp only [pfx, Bool.and_eq_true, beq_iff_eq] at h
        exact hnl (h.1 ▸ List.mem_cons_self _ _)
    · exact h
  | cons x xs' ih =>
    rw [List.cons_append] at h
    rcases hasSub_cons_cases h with h | h
    · left
      exact hasSub_of_pfx (pfx_of_pfx_append_nl hnl (x :: xs') ys h)
    · rcases ih h with h | h
      · left; rw [hasSub_cons, h]; simp
      · right; exact h

/-- A nonempty newline-free pattern cannot be a prefix of a string starting
with a newline. -/
theorem pfx_nl_head_false {pat : List Char} (hnl : '\n' ∉ pat) (hne : pat ≠ [])
    (ys : List Char) : pfx pat ('\n' :: ys) = false := by
  cases pat with
  | nil => exact absurd rfl hne
  | cons c cs =>
    cases h : (c == '\n') with
    | true =>
      exfalso
      have hc : c = '\n' := by simpa using h
      exact hnl (hc ▸ List.mem_cons_self _ _)
    | false => simp [pfx, h]

theorem findSub_nil (pat : List Char) :
    findSub pat [] = if pat = [] then some 0 else none := rfl

theorem findSub_cons (pat : List Char) (c : Char) (rest : List Char) :
    findSub pat (c :: rest) =
      if pfx pat (c :: rest) then some 0 else (findSub pat rest).map (· + 1) := rfl

/-- Position of the marker after appending a fresh marked section: the first
occurrence of a nonempty newline-free `pat` in `xs ++ "\n\n" ++ pat ++ t`,
when `pat` does not occur in `xs`, is exactly at index `xs.length + 2`. -/
theorem findSub_of_pfx {pat s : List Char} (hne : pat ≠ []) (h : pfx pat s = true) :
    findSub pat s = some 0 := by
  cases s with
  | nil => exact absurd (pfx_nil_right h) hne
  | cons c rest => rw [findSub_cons, if_pos h]

theorem findSub_append_section {pat : List Char} (hnl : '\n' ∉ pat) (hne : pat ≠ [])
    : ∀ xs : List Char, hasSub pat xs = false → ∀ t : List Char,
      findSub pat (xs ++ '\n' :: '\n' :: (pat ++ t)) = some (xs.length + 2) := by
  intro xs
  induction xs with
  | nil =>
    intro _ t
    simp only [List.nil_append, List.length_nil]
    rw [findSub_cons, if_neg (by simp [pfx_nl_head_false hnl hne])]
    rw [findSub_cons, if_neg (by simp [pfx_nl_head_false hnl hne])]
    rw [findSub_of_pfx hne (pfx_append_self pat t)]
    rfl
  | cons x xs' ih =>
    intro hxs t
    have hsplit : pfx pat (x :: xs') = false ∧ hasSub pat xs' = false := by
      rw [hasSub_cons, Bool.or_eq_false_iff] at hxs
      exact hxs
    have hx : ¬ pfx pat (x :: (xs' ++ '\n' :: '\n' :: (pat ++ t))) = true := by
      rw [← List.cons_append]
      intro hp
      have := pfx_of_pfx_append_nl hnl (x :: xs') ('\n' :: (pat ++ t)) hp
      rw [hsplit.1] at this
      exact Bool.false_ne_true this
    rw [List.cons_append, findSub_cons, if_neg hx, ih hsplit.2 t]
    simp [Option.map_some', List.length_cons]

/-! ### Double newlines, `str.rstrip`, take/drop -/

/-- `s` contains no two consecutive newline characters. -/
def noNLNL : List Char → Bool
  | [] => true
  | [_] => true
  | a :: b :: rest => !(a == '\n' && b == '\n') && noNLNL (b :: rest)

/-- If `s` has no two consecutive newlines, Python `s.find("\n\n")` fails. -/
theorem findSub_nlnl_of_noNLNL : ∀ s : List Char, noNLNL s = true →
    findSub ['\n', '\n'] s = none := by
  intro s
  induction s with
  | nil => intro _; rfl
  | cons a rest ih =>
    intro h
    cases rest with
    | nil =>
      rw [findSub_cons, if_neg (by simp [pfx])]
      rfl
    | cons b rest' =>
      simp only [noNLNL, Bool.and_eq_true, Bool.not_eq_true'] at h
      have hcond : pfx ['\n', '\n'] (a :: b :: rest') = false := by
        by_cases ha : a = '\n'
        · by_cases hb : b = '\n'
          · subst ha; subst hb; simp at h
          · simp [pfx, Ne.symm hb]
        · simp [pfx, Ne.symm ha]
      rw [findSub_cons, if_neg (by simp [hcond]), ih h.2]
      rfl

/-- Python whitespace for `str.rstrip()` (the ASCII whitespace characters). -/
def isSpc (c : Char) : Bool :=
  c == ' ' || c == '\t' || c == '\n' || c == '\r' || c == '\x0b' || c == '\x0c'

/-- Python `s.rstrip()`. -/
def rstrip (s : List Char) : List Char := (s.reverse.dropWhile isSpc).reverse

theorem rstrip_append_nlnl (s : List Char) : rstrip (s ++ ['\n', '\n']) = rstrip s := by
  simp [rstrip, List.dropWhile, isSpc]

theorem take_append_len (xs : List Char) : ∀ (ys : List Char) (n : Nat),
    (xs ++ ys).take (xs.length + n) = xs ++ ys.take n := by
  induction xs with
  | nil => intro ys n; simp
  | cons x xs ih =>
    intro ys n
    simp only [List.cons_append, List.length_cons]
    rw [Nat.succ_add, List.take_succ_cons, ih]

theorem drop_append_len (xs : List Char) : ∀ (ys : List Char) (n : Nat),
    (xs ++ ys).drop (xs.length + n) = ys.drop n := by
  induction xs with
  | nil => intro ys n; simp
  | cons x xs ih =>
    intro ys n
    simp only [List.cons_append, List.length_cons]
    rw [Nat.succ_add, List.drop_succ_cons, ih]

/-! ### Lines: splitting on newlines and joining, used to model the
line-anchored `re.sub` patterns (`re.MULTILINE`) of `_update_overclock_section` -/

/-- Split on `'\n'` (semantics of Python `s.split("\n")`). -/
def splitNL : List Char → List (List Char)
  | [] => [[]]
  | c :: rest =>
    let r := splitNL rest
    if c = '\n' then [] :: r
    else
      match r with
      | [] => [[c]]
      | l :: ls => (c :: l) :: ls

/-- Join lines with `'\n'` (inverse of `splitNL`). -/
def joinNL : List (List Char) → List Char
  | [] => []
  | [l] => l
  | l :: ls => l ++ '\n' :: joinNL ls

theorem splitNL_ne_nil : ∀ s : List Char, splitNL s ≠ [] := by
  intro s
  cases s with
  | nil => simp [splitNL]
  | cons c rest =>
    simp only [splitNL]
    by_cases h : c = '\n'
    · simp [h]
    · simp only [if_neg h]
      cases splitNL rest with
      | nil => simp
      | cons l ls => simp

theorem splitNL_cons_nl (rest : List Char) :
    splitNL ('\n' :: rest) = [] :: splitNL rest := by
  simp [splitNL]

theorem splitNL_cons_other {c : Char} (hc : c ≠ '\n') {rest : List Char}
    {l : List Char} {ls : List (List Char)} (h : splitNL rest = l :: ls) :
    splitNL (c :: rest) = (c :: l) :: ls := by
  simp [splitNL, hc, h]

theorem joinNL_cons (l : List Char) (ls : List (List Char)) (h : ls ≠ []) :
    joinNL (l :: ls) = l ++ '\n' :: joinNL ls := by
  cases ls with
  | nil => exact absurd rfl h
  | cons m ms => rfl

theorem joinNL_splitNL : ∀ s : List Char, joinNL (splitNL s) = s := by
  intro s
  induction s with
  | nil => rfl
  | cons c rest ih =>
    by_cases h : c = '\n'
    · subst h
      rw [splitNL_cons_nl, joinNL_cons [] (splitNL rest) (splitNL_ne_nil rest)]
      simp [ih]
    · cases hr : splitNL rest with
      | nil => exact absurd hr (splitNL_ne_nil rest)
      | cons l ls =>
        rw [splitNL_cons_other h hr]
        cases ls with
        | nil =>
          rw [hr] at ih
          simpa [joinNL] using ih
        | cons m ms =>
          rw [joinNL_cons (c :: l) (m :: ms) (by simp), List.cons_append]
          rw [hr, joinNL_cons l (m :: ms) (by simp)] at ih
          simp [ih]

theorem splitNL_append_nl (xs : List Char) : ∀ ys : List Char,
    splitNL (xs ++ '\n' :: ys) = splitNL xs ++ splitNL ys := by
  induction xs with
  | nil => intro ys; simp [splitNL_cons_nl, splitNL]
  | cons x xs ih =>
    intro ys
    by_cases h : x = '\n'
    · subst h
      rw [List.cons_append, splitNL_cons_nl, splitNL_cons_nl, ih ys]
      rfl
    · cases hx : splitNL xs with
      | nil => exact absurd hx (splitNL_ne_nil xs)
      | cons l ls =>
        have hmid : splitNL (xs ++ '\n' :: ys) = (l :: ls) ++ splitNL ys := by
          rw [ih ys, hx]
        rw [List.cons_append, splitNL_cons_other h (by rw [hmid]; rfl),
          splitNL_cons_other h hx]
        rfl

theorem splitNL_no_nl : ∀ (s : List Char), ∀ l ∈ splitNL s, '\n' ∉ l := by
  intro s
  induction s with
  | nil => intro l hl; simp [splitNL] at hl; simp [hl]
  | cons c rest ih =>
    intro l hl
    by_cases h : c = '\n'
    · subst h
      rw [splitNL_cons_nl] at hl
      rcases List.mem_cons.mp hl with h2 | h2
      · simp [h2]
      · exact ih l h2
    · cases hr : splitNL rest with
      | nil => exact absurd hr (splitNL_ne_nil rest)
      | cons m ms =>
        rw [splitNL_cons_other h hr] at hl
        rcases List.mem_cons.mp hl with h2 | h2
        · subst h2
          intro hmem
          rcases List.mem_cons.mp hmem with h3 | h3
          · exact h h3.symm
          · exact ih m (hr ▸ List.mem_cons_self m ms) h3
        · exact ih l (hr ▸ List.mem_cons_of_mem m h2)

/-- A single newline-free line splits to itself. -/
theorem splitNL_single {l : List Char} (hnl : '\n' ∉ l) : splitNL l = [l] := by
  induction l with
  | nil => rfl
  | cons c cs ih =>
    have hc : c ≠ '\n' := fun h => hnl (h ▸ List.mem_cons_self c cs)
    rw [splitNL_cons_other hc (ih (fun h => hnl (List.mem_cons_of_mem c h)))]

theorem splitNL_joinNL : ∀ ls : List (List Char), ls ≠ [] →
    (∀ l ∈ ls, '\n' ∉ l) → splitNL (joinNL ls) = ls := by
  intro ls
  induction ls with
  | nil => intro h; exact absurd rfl h
  | cons l ls ih =>
    intro _ hnl
    cases ls with
    | nil =>
      show splitNL (joinNL [l]) = [l]
      exact splitNL_single (hnl l (by simp))
    | cons m ms =>
      rw [joinNL_cons l (m :: ms) (by simp), splitNL_append_nl,
        ih (by simp) (fun x hx => hnl x (List.mem_cons_of_mem l hx)),
        splitNL_single (hnl l (List.mem_cons_self l (m :: ms)))]
      rfl

theorem joinNL_append (as : List (List Char)) : ∀ bs : List (List Char),
    as ≠ [] → bs ≠ [] → joinNL (as ++ bs) = joinNL as ++ '\n' :: joinNL bs := by
  induction as with
  | nil => intro bs h _; exact absurd rfl h
  | cons a as ih =>
    intro bs _ hbs
    cases as with
    | nil =>
      cases bs with
      | nil => exact absurd rfl hbs
      | cons b bs' => simp [joinNL, joinNL_cons]
    | cons a' as' =>
      rw [List.cons_append, joinNL_cons a ((a' :: as') ++ bs) (by simp),
        ih bs (by simp) hbs, joinNL_cons a (a' :: as') (by simp)]
      simp

/-- Joining nonempty newline-free lines (with a final empty line allowed)
never produces two consecutive newlines. -/
theorem noNLNL_append_nl {l rest : List Char} (hl : '\n' ∉ l)
    (hrest : noNLNL rest = true)
    (hhead : ∀ c cs, rest = c :: cs → c ≠ '\n') :
    noNLNL (l ++ '\n' :: rest) = true := by
  induction l with
  | nil =>
    simp only [List.nil_append]
    cases rest with
    | nil => rfl
    | cons c cs =>
      have hc : c ≠ '\n' := hhead c cs rfl
      simp [noNLNL, hc, hrest]
  | cons a l' ih =>
    have ha : a ≠ '\n' := fun h => hl (h ▸ List.mem_cons_self a l')
    have hl' : '\n' ∉ l' := fun h => hl (List.mem_cons_of_mem a h)
    have tail := ih hl'
    cases l' with
    | nil =>
      simp only [List.nil_append] at tail
      simp [noNLNL, ha, tail]
    | cons b l'' =>
      have hb : ('\n' : Char) ≠ b := by
        intro h
        exact hl' (h ▸ List.mem_cons_self b l'')
      simp only [List.cons_append] at tail ⊢
      simp only [noNLNL, Bool.and_eq_true, Bool.not_eq_true']
      constructor
      · simp [ha]
      · exact tail

/-- `joinNL (ls ++ [[]])` has no double newline when every line of `ls` is
nonempty and newline-free. -/
theorem noNLNL_joinNL_lines : ∀ ls : List (List Char),
    (∀ l ∈ ls, l ≠ [] ∧ '\n' ∉ l) → noNLNL (joinNL (ls ++ [[]])) = true := by
  intro ls
  induction ls with
  | nil => intro _; rfl
  | cons l ls ih =>
    intro h
    rw [List.cons_append, joinNL_cons l (ls ++ [[]]) (by simp)]
    refine noNLNL_append_nl (h l (by simp)).2 (ih (fun x hx => h x (by simp [hx]))) ?_
    intro c cs hcc
    cases ls with
    | nil =>
      simp [joinNL] at hcc
    | cons m ms =>
      rw [List.cons_append, joinNL_cons m (ms ++ [[]]) (by simp)] at hcc
      have hm := h m (by simp)
      cases hme : m with
      | nil => exact absurd hme hm.1
      | cons d ds =>
        rw [hme] at hcc
        simp only [List.cons_append] at hcc
        intro hc
        apply hm.2
        injection hcc with h1 _
        rw [hme, h1, hc]
        exact List.mem_cons_self _ _

/-! ### Decimal rendering of integers (Python `str(int)` / f-string interpolation) -/

/-- Decimal digits of a natural number, with explicit fuel (structural
recursion, so the kernel can evaluate it). -/
def natStrAux : Nat → Nat → List Char
  | 0, _ => []
  | f + 1, n =>
    if n < 10 then [Nat.digitChar n]
    else natStrAux f (n / 10) ++ [Nat.digitChar (n % 10)]

/-- Decimal digits of a natural number (Python `str(n)` for `n ≥ 0`). -/
def natStr (n : Nat) : List Char := natStrAux (n + 1) n

theorem natStrAux_irrel : ∀ f1 n, n < f1 → ∀ f2, n < f2 →
    natStrAux f1 n = natStrAux f2 n := by
  intro f1
  induction f1 with
  | zero => intro n h; omega
  | succ f ih =>
    intro n _ f2 h2
    cases f2 with
    | zero => omega
    | succ g =>
      simp only [natStrAux]
      by_cases h10 : n < 10
      · simp [h10]
      · simp only [if_neg h10]
        have hd : n / 10 < n := Nat.div_lt_self (by omega) (by omega)
        rw [ih (n / 10) (by omega) g (by omega)]

/-- The recursive unfolding of `natStr`. -/
theorem natStr_eq (n : Nat) : natStr n =
    if n < 10 then [Nat.digitChar n]
    else natStr (n / 10) ++ [Nat.digitChar (n % 10)] := by
  show natStrAux (n + 1) n = _
  simp only [natStrAux]
  by_cases h10 : n < 10
  · simp [h10]
  · simp only [if_neg h10]
    have hd : n / 10 < n := Nat.div_lt_self (by omega) (by omega)
    rw [natStrAux_irrel n (n / 10) (by omega) (n / 10 + 1) (by omega)]
    rfl

/-- Python `str(i)` for an `int`. -/
def intStr (i : Int) : List Char :=
  if i < 0 then '-' :: natStr (i.natAbs) else natStr i.toNat

theorem digitChar_isDigit {d : Nat} (h : d < 10) : (Nat.digitChar d).isDigit = true := by
  interval_cases d <;> decide

theorem natStr_ne_nil (n : Nat) : natStr n ≠ [] := by
  rw [natStr_eq]
  by_cases h : n < 10
  · simp [h]
  · simp [h]

theorem natStr_all_digits (n : Nat) : ∀ c ∈ natStr n, c.isDigit = true := by
  induction n using Nat.strong_induction_on with
  | _ n ih =>
    intro c hc
    rw [natStr_eq] at hc
    by_cases h : n < 10
    · rw [if_pos h] at hc
      rcases List.mem_singleton.mp hc with rfl
      exact digitChar_isDigit h
    · rw [if_neg h] at hc
      rcases List.mem_append.mp hc with h2 | h2
      · exact ih (n / 10) (Nat.div_lt_self (by omega) (by omega)) c h2
      · rcases List.mem_singleton.mp h2 with rfl
        exact digitChar_isDigit (Nat.mod_lt n (by omega))

theorem isDigit_ne_nl {c : Char} (h : c.isDigit = true) : c ≠ '\n' := by
  intro hc; subst hc; simp [Char.isDigit] at h

theorem isDigit_ne_hash {c : Char} (h : c.isDigit = true) : c ≠ '#' := by
  intro hc; subst hc; simp [Char.isDigit] at h

theorem natStr_no_nl (n : Nat) : '\n' ∉ natStr n := by
  intro h; exact absurd (natStr_all_digits n '\n' h) (by decide)

theorem intStr_no_nl (i : Int) : '\n' ∉ intStr i := by
  intro h
  unfold intStr at h
  by_cases hi : i < 0
  · rw [if_pos hi] at h
    rcases List.mem_cons.mp h with h2 | h2
    · exact absurd h2.symm (by decide)
    · exact natStr_no_nl _ h2
  · rw [if_neg hi] at h
    exact natStr_no_nl _ h

theorem intStr_no_hash (i : Int) : '#' ∉ intStr i := by
  intro h
  unfold intStr at h
  by_cases hi : i < 0
  · rw [if_pos hi] at h
    rcases List.mem_cons.mp h with h2 | h2
    · exact absurd h2.symm (by decide)
    · exact absurd (natStr_all_digits _ '#' h2) (by decide)
  · rw [if_neg hi] at h
    exact absurd (natStr_all_digits _ '#' h) (by decide)

theorem intStr_ne_nil (i : Int) : intStr i ≠ [] := by
  unfold intStr
  by_cases hi : i < 0
  · simp [hi]
  · simp [hi, natStr_ne_nil]

/-- For a nonnegative integer, the rendering is all digits. -/
theorem intStr_nonneg_digits {i : Int} (h : 0 ≤ i) :
    ∀ c ∈ intStr i, c.isDigit = true := by
  intro c hc
  unfold intStr at hc
  rw [if_neg (by omega)] at hc
  exact natStr_all_digits _ c hc

/-! ### Data model (`core/config.py` / `hardware/overclock.py`) -/

/-- `OverclockProfile` from `core/config.py`: an immutable named set of
frequency/voltage parameters. -/
structure OverclockProfile where
  name : List Char
  arm_freq : Int
  gpu_freq : Int
  over_voltage : Int
  over_voltage_delta : Int
  description : List Char
deriving DecidableEq, Repr

/-- `OverclockResult` from `hardware/overclock.py`. -/
structure OverclockResult where
  success : Bool
  message : List Char
  reboot_required : Bool
deriving DecidableEq, Repr

/-- The model of the file system touched by `OverclockManager`:
the contents of the boot configuration resource, the backup copies made by
`backup_file` (backup metadata), and a ghost trace of the profiles passed to
`apply_profile` (instrumentation only; it records invocations, it is not
part of the Python state).  The model covers the non-Armbian deployment
(`is_armbian = False`) and the runs in which the configuration file exists
and `backup_file` / `atomic_write` succeed. -/
structure Sys where
  config : List Char
  backups : List (List Char)
  calls : List OverclockProfile
deriving DecidableEq, Repr

/-- `OverclockManager.validate_profile` (`overclock.py` lines 61-80). -/
def validate_profile (p : OverclockProfile) : Bool × List Char :=
  if p.arm_freq < 600 ∨ p.arm_freq > 3000 then
    (false, chars "Invalid ARM frequency: " ++ intStr p.arm_freq ++ chars "MHz")
  else if p.gpu_freq < 300 ∨ p.gpu_freq > 1100 then
    (false, chars "Invalid GPU frequency: " ++ intStr p.gpu_freq ++ chars "MHz")
  else if p.over_voltage < -16 ∨ p.over_voltage > 8 then
    (false, chars "Invalid over_voltage: " ++ intStr p.over_voltage)
  else if p.over_voltage_delta < 0 ∨ p.over_voltage_delta > 100000 then
    (false, chars "Invalid over_voltage_delta: " ++ intStr p.over_voltage_delta)
  else
    (true, chars "Profile validated")

/-- The OVERKILL marker token. -/
def marker : List Char := chars "# OVERKILL PI 5 CONFIGURATION"

/-- The lines of the appended OVERKILL section
(`OverclockManager._generate_overclock_section`) after the marker line. -/
def secTail (p : OverclockProfile) : List (List Char) :=
  [chars "# Profile: " ++ p.name,
   chars "# " ++ p.description,
   chars "dtparam=pciex1_gen=3",
   chars "gpu_mem=1024",
   chars "dtoverlay=vc4-kms-v3d-pi5",
   chars "max_framebuffers=3",
   chars "hdmi_enable_4kp60=1",
   chars "force_turbo=1",
   chars "arm_freq=" ++ intStr p.arm_freq,
   chars "gpu_freq=" ++ intStr p.gpu_freq,
   chars "over_voltage=" ++ intStr p.over_voltage]
  ++ (if p.over_voltage_delta > 0
      then [chars "over_voltage_delta=" ++ intStr p.over_voltage_delta] else [])

/-- All the lines of the appended OVERKILL section: the marker line followed
by `secTail`. -/
def secCore (p : OverclockProfile) : List (List Char) :=
  marker :: secTail p

/-- `OverclockManager._generate_overclock_section`: the appended text, which
starts with a blank line and ends with a newline. -/
def genSection (p : OverclockProfile) : List Char :=
  '\n' :: '\n' :: joinNL (secCore p ++ [[]])

/-- One `re.sub(r'^key=\d+', 'key=value', line)` step of
`_update_overclock_section`, restricted to a single line (the pattern is
anchored with `^` under `re.MULTILINE` and `\d+` cannot cross a newline, so
the substitution acts line by line). -/
def subKeyLine (key val l : List Char) : List Char :=
  if pfx key l then
    let rest := l.drop key.length
    let ds := rest.takeWhile Char.isDigit
    if ds.isEmpty then l else key ++ val ++ rest.dropWhile Char.isDigit
  else l

/-- The `re.sub(r'^# Profile: .*', ...)` step of `_update_overclock_section`
on a single line (`.*` extends to the end of the line). -/
def subProfLine (name l : List Char) : List Char :=
  if pfx (chars "# Profile: ") l then chars "# Profile: " ++ name else l

/-- The four patterns of the `updates` dict of `_update_overclock_section`,
applied in dict order (arm_freq, gpu_freq, over_voltage, profile comment). -/
def sub4 (p : OverclockProfile) (l : List Char) : List Char :=
  subProfLine p.name
    (subKeyLine (chars "over_voltage=") (intStr p.over_voltage)
      (subKeyLine (chars "gpu_freq=") (intStr p.gpu_freq)
        (subKeyLine (chars "arm_freq=") (intStr p.arm_freq) l)))

/-- Does a line match `r'(^over_voltage=\d+)$'` in full? -/
def ovdFullMatch (l : List Char) : Bool :=
  pfx (chars "over_voltage=") l &&
    (let rest := l.drop (chars "over_voltage=").length
     !rest.isEmpty && rest.all Char.isDigit)

/-- Line-level expansion used for the
`re.sub(r'(^over_voltage=\d+)$', '\1\nover_voltage_delta=...', ...)` step,
which inserts a new line after every full `over_voltage=<digits>` line. -/
def expandLines (f : List Char → List (List Char)) : List (List Char) → List (List Char)
  | [] => []
  | l :: ls => f l ++ expandLines f ls

/-- The `over_voltage_delta` step of `_update_overclock_section`
(lines 175-191): replace the existing delta lines when the key occurs
anywhere in the content, otherwise insert a delta line after every full
`over_voltage=<digits>` line; skipped entirely when the profile's delta
is not positive. -/
def deltaPass (p : OverclockProfile) (ls : List (List Char)) : List (List Char) :=
  if p.over_voltage_delta > 0 then
    if hasSub (chars "over_voltage_delta=") (joinNL ls) then
      ls.map (subKeyLine (chars "over_voltage_delta=") (intStr p.over_voltage_delta))
    else
      expandLines (fun l =>
        if ovdFullMatch l
        then [l, chars "over_voltage_delta=" ++ intStr p.over_voltage_delta]
        else [l]) ls
  else ls

/-- `OverclockManager._update_overclock_section` (lines 161-193): the four
line-anchored substitutions followed by the delta step. -/
def updateSection (content : List Char) (p : OverclockProfile) : List Char :=
  joinNL (deltaPass p ((splitNL content).map (sub4 p)))

/-- The content transformation of a successful `apply_profile`
(`overclock.py` lines 112-118): append a new section when the marker is
absent, otherwise update in place. -/
def applyContent (p : OverclockProfile) (content : List Char) : List Char :=
  if hasSub marker content then updateSection content p
  else content ++ genSection p

/-- The content transformation of `remove_overclock`
(`overclock.py` lines 228-239): locate the marker, delete up to the next
blank line, or `rstrip` to the end of the file. -/
def removeContent (content : List Char) : List Char :=
  match findSub marker content with
  | none => content
  | some s =>
    match findSub ['\n', '\n'] (content.drop s) with
    | none => rstrip (content.take s)
    | some e => content.take s ++ content.drop (s + e + 2)

/-- `OverclockManager.apply_profile` (lines 82-135): validate (returning
failure with no I/O on an invalid profile), otherwise back up the
configuration and rewrite it. -/
def apply_profile (p : OverclockProfile) (s : Sys) : OverclockResult × Sys :=
  let s0 : Sys := { s with calls := s.calls ++ [p] }
  let v := validate_profile p
  if v.1 then
    (⟨true, chars "Successfully applied " ++ p.name ++ chars " profile. Reboot required.", true⟩,
     { s0 with
        backups := s0.backups ++ [s0.config],
        config := applyContent p s0.config })
  else
    (⟨false, v.2, false⟩, s0)

/-- `OverclockManager.remove_overclock` (lines 217-249). -/
def remove_overclock (s : Sys) : OverclockResult × Sys :=
  (⟨true, chars "Overclock settings removed. Reboot required.", true⟩,
   { s with
      backups := s.backups ++ [s.config],
      config := removeContent s.config })

/-! ### More substring lemmas -/

theorem pfx_append_ext {pat s : List Char} (ys : List Char) (h : pfx pat s = true) :
    pfx pat (s ++ ys) = true := by
  induction pat generalizing s with
  | nil => rfl
  | cons c cs ih =>
    cases s with
    | nil => simp [pfx] at h
    | cons b bs =>
      simp only [pfx, Bool.and_eq_true] at h
      simp only [List.cons_append, pfx, Bool.and_eq_true]
      exact ⟨h.1, ih h.2⟩

theorem hasSub_append_left {pat xs : List Char} (ys : List Char)
    (h : hasSub pat xs = true) : hasSub pat (xs ++ ys) = true := by
  induction xs with
  | nil =>
    have : pat = [] := by
      by_cases hp : pat = []
      · exact hp
      · simp [hasSub, findSub, hp] at h
    subst this
    exact hasSub_of_pfx rfl
  | cons x xs' ih =>
    rcases hasSub_cons_cases h with h2 | h2
    · rw [List.cons_append]
      rw [hasSub_cons]
      have := pfx_append_ext ys h2
      rw [List.cons_append] at this
      simp [this]
    · rw [List.cons_append, hasSub_cons, ih h2]
      simp

theorem hasSub_drop {pat l : List Char} (n : Nat)
    (h : hasSub pat (l.drop n) = true) : hasSub pat l = true := by
  induction n generalizing l with
  | zero => simpa using h
  | succ n ih =>
    cases l with
    | nil => simpa using h
    | cons c l' =>
      rw [List.drop_succ_cons] at h
      rw [hasSub_cons, ih h]
      simp

theorem hasSub_dropWhile {pat l : List Char} (f : Char → Bool)
    (h : hasSub pat (l.dropWhile f) = true) : hasSub pat l = true := by
  induction l with
  | nil => simpa [List.dropWhile] using h
  | cons c l' ih =>
    rw [List.dropWhile] at h
    cases hc : f c with
    | true =>
      simp only [hc] at h
      rw [hasSub_cons, ih h]
      simp
    | false =>
      simp only [hc] at h
      exact h

theorem hasSub_joinNL_of_mem {pat l : List Char} {ls : List (List Char)}
    (hm : l ∈ ls) (h : hasSub pat l = true) : hasSub pat (joinNL ls) = true := by
  induction ls with
  | nil => simp at hm
  | cons m ms ih =>
    rcases List.mem_cons.mp hm with rfl | hm2
    · cases ms with
      | nil => simpa [joinNL] using h
      | cons x xs =>
        rw [joinNL_cons l (x :: xs) (by simp)]
        exact hasSub_append_left _ h
    · cases ms with
      | nil => simp at hm2
      | cons x xs =>
        rw [joinNL_cons m (x :: xs) (by simp)]
        apply hasSub_append_right
        rw [hasSub_cons, ih hm2]
        simp

/-- An occurrence of a nonempty newline-free pattern in joined lines lies in
one of the lines. -/
theorem hasSub_joinNL_cases {pat : List Char} (hnl : '\n' ∉ pat) (hne : pat ≠ []) :
    ∀ ls : List (List Char), hasSub pat (joinNL ls) = true →
      ∃ l ∈ ls, hasSub pat l = true := by
  intro ls
  induction ls with
  | nil =>
    intro h
    simp [joinNL, hasSub, findSub, hne] at h
  | cons m ms ih =>
    intro h
    cases ms with
    | nil => exact ⟨m, by simp, by simpa [joinNL] using h⟩
    | cons x xs =>
      rw [joinNL_cons m (x :: xs) (by simp)] at h
      rcases hasSub_append_nl_cases hnl hne m (joinNL (x :: xs)) h with h2 | h2
      · exact ⟨m, by simp, h2⟩
      · rcases ih h2 with ⟨l, hl, h3⟩
        exact ⟨l, List.mem_cons_of_mem m hl, h3⟩

theorem pfx_head_ne {a b : Char} (h : a ≠ b) (as bs : List Char) :
    pfx (a :: as) (b :: bs) = false := by
  simp [pfx, h]

/-- If `key` and `lit` disagree (neither is a prefix of the other), then
`key` is not a prefix of `lit ++ x` for any `x`. -/
theorem pfx_false_of_mismatch : ∀ (key lit x : List Char),
    pfx key lit = false → pfx lit key = false → pfx key (lit ++ x) = false := by
  intro key
  induction key with
  | nil => intro lit x h _; simp [pfx] at h
  | cons c cs ih =>
    intro lit x h1 h2
    cases lit with
    | nil => simp [pfx] at h2
    | cons b bs =>
      by_cases hcb : c = b
      · subst hcb
        simp only [pfx, beq_self_eq_true, Bool.true_and] at h1 h2
        simp only [List.cons_append, pfx, beq_self_eq_true, Bool.true_and]
        exact ih bs x h1 h2
      · simp [List.cons_append, pfx, hcb]

theorem takeWhile_all {f : Char → Bool} : ∀ {l : List Char},
    (∀ c ∈ l, f c = true) → l.takeWhile f = l := by
  intro l h
  induction l with
  | nil => rfl
  | cons c cs ih =>
    rw [List.takeWhile_cons, if_pos (h c (by simp))]
    rw [ih (fun x hx => h x (List.mem_cons_of_mem c hx))]

theorem dropWhile_all {f : Char → Bool} : ∀ {l : List Char},
    (∀ c ∈ l, f c = true) → l.dropWhile f = [] := by
  intro l h
  induction l with
  | nil => rfl
  | cons c cs ih =>
    rw [List.dropWhile_cons, if_pos (h c (by simp))]
    exact ih (fun x hx => h x (List.mem_cons_of_mem c hx))

/-! ### Line-substitution helper lemmas -/

theorem subKeyLine_no {key val l : List Char} (h : pfx key l = false) :
    subKeyLine key val l = l := by
  simp [subKeyLine, h]

theorem subProfLine_no {name l : List Char} (h : pfx (chars "# Profile: ") l = false) :
    subProfLine name l = l := by
  simp [subProfLine, h]

/-- Rewriting `key ++ intStr i` with the same value leaves the line unchanged
(the digits are replaced by themselves; a negative value does not match `\d+`). -/
theorem subKeyLine_key_intStr (key : List Char) (i : Int) :
    subKeyLine key (intStr i) (key ++ intStr i) = key ++ intStr i := by
  unfold subKeyLine
  rw [if_pos (pfx_append_self key (intStr i))]
  simp only [List.drop_left]
  by_cases hi : i < 0
  · have : intStr i = '-' :: natStr i.natAbs := by simp [intStr, hi]
    rw [this]
    simp [List.takeWhile_cons, Char.isDigit]
  · have hd : ∀ c ∈ intStr i, c.isDigit = true := intStr_nonneg_digits (by omega)
    rw [takeWhile_all hd, dropWhile_all hd]
    simp [List.isEmpty_iff, intStr_ne_nil i]

/-! ### The fixed test ladder (`silicon_tester.py` lines 55-96) -/

/-- The five built-in ladder profiles, in increasing aggressiveness. -/
def test_profiles : List OverclockProfile :=
  [⟨chars "stock", 2400, 910, 0, 0, chars "Stock settings"⟩,
   ⟨chars "mild", 2600, 950, 2, 0, chars "Mild overclock"⟩,
   ⟨chars "moderate", 2800, 1000, 4, 0, chars "Moderate overclock"⟩,
   ⟨chars "aggressive", 3000, 1050, 6, 50000, chars "Aggressive overclock"⟩,
   ⟨chars "extreme", 3200, 1100, 8, 100000, chars "Extreme overclock"⟩]

/-- The stock profile, also used as a concrete sample input. -/
def stockProfile : OverclockProfile :=
  ⟨chars "stock", 2400, 910, 0, 0, chars "Stock settings"⟩

/-- Claim C10.  When the configuration does not contain the OVERKILL marker,
`remove_overclock` succeeds, requires a reboot, and writes back exactly the
content it read: the configuration resource is unchanged (only a backup is
added). -/
theorem C10_remove_without_marker (s : Sys) (h : hasSub marker s.config = false) :
    remove_overclock s =
      (⟨true, chars "Overclock settings removed. Reboot required.", true⟩,
       { s with backups := s.backups ++ [s.config] }) := by
  have hf : findSub marker s.config = none := by
    cases hfs : findSub marker s.config with
    | none => rfl
    | some v => rw [hasSub, hfs] at h; simp at h
  unfold remove_overclock removeContent
  rw [hf]

/-- Witness for C10 at a concrete marker-free configuration. -/
theorem C10_remove_without_marker_witness :
    hasSub marker (chars "arm_freq=2400\n") = false ∧
    remove_overclock ⟨chars "arm_freq=2400\n", [], []⟩ =
      (⟨true, chars "Overclock settings removed. Reboot required.", true⟩,
       ⟨chars "arm_freq=2400\n", [chars "arm_freq=2400\n"], []⟩) :=
  ⟨by decide, C10_remove_without_marker ⟨chars "arm_freq=2400\n", [], []⟩ (by decide)⟩

/-- A profile whose gpu frequency is below the documented minimum of 500 MHz
but above the 300 MHz bound actually enforced by `validate_profile`. -/
def lowGpuProfile : OverclockProfile :=
  ⟨chars "lowgpu", 2400, 400, 0, 0, chars "gpu frequency below the documented minimum"⟩

/-- Counterexample to claim C2 as stated.  `lowGpuProfile.gpu_freq = 400` is
outside the claimed range [500, 1100], yet the validator used by the apply
path accepts it, and `apply_profile` succeeds and mutates the configuration
resource. -/
theorem C2_counterexample :
    lowGpuProfile.gpu_freq < 500 ∧
    validate_profile lowGpuProfile = (true, chars "Profile validated") ∧
    (apply_profile lowGpuProfile ⟨[], [], []⟩).1.success = true ∧
    (apply_profile lowGpuProfile ⟨[], [], []⟩).2.config ≠ [] := by
  refine ⟨by decide, by decide, by decide, by decide⟩

/-- Claim C2, amended to the ranges the code enforces: for every profile with
arm_freq outside [600,3000], or gpu_freq outside [300,1100], or over_voltage
outside [-16,8], or over_voltage_delta outside [0,100000], `validate_profile`
returns `false` with a non-empty message and `apply_profile` returns
`OverclockResult(success=false, reboot_required=false)` leaving the
configuration and backups untouched (only the ghost call trace grows). -/
theorem C2_amended_validator_ranges (p : OverclockProfile) (s : Sys)
    (h : p.arm_freq < 600 ∨ p.arm_freq > 3000 ∨
         p.gpu_freq < 300 ∨ p.gpu_freq > 1100 ∨
         p.over_voltage < -16 ∨ p.over_voltage > 8 ∨
         p.over_voltage_delta < 0 ∨ p.over_voltage_delta > 100000) :
    (validate_profile p).1 = false ∧ (validate_profile p).2 ≠ [] ∧
    apply_profile p s =
      (⟨false, (validate_profile p).2, false⟩, { s with calls := s.calls ++ [p] }) := by
  have hne : ∀ (a b : List Char), a ≠ [] → a ++ b ≠ [] := by
    intro a b ha hab
    exact ha (List.append_eq_nil.mp hab).1
  have hv : (validate_profile p).1 = false ∧ (validate_profile p).2 ≠ [] := by
    unfold validate_profile
    split_ifs with h1 h2 h3 h4
    · exact ⟨rfl, hne _ _ (hne _ _ (by decide))⟩
    · exact ⟨rfl, hne _ _ (hne _ _ (by decide))⟩
    · exact ⟨rfl, hne _ _ (by decide)⟩
    · exact ⟨rfl, hne _ _ (by decide)⟩
    · exfalso; rcases h with h | h | h | h | h | h | h | h <;> omega
  refine ⟨hv.1, hv.2, ?_⟩
  simp [apply_profile, hv.1]

/-- Witness for C2's amended theorem at a concrete out-of-range profile. -/
theorem C2_amended_validator_ranges_witness :
    ((⟨chars "bad", 4000, 910, 0, 0, chars "arm too high"⟩ : OverclockProfile).arm_freq > 3000) ∧
    (validate_profile ⟨chars "bad", 4000, 910, 0, 0, chars "arm too high"⟩).1 = false ∧
    (validate_profile ⟨chars "bad", 4000, 910, 0, 0, chars "arm too high"⟩).2 ≠ [] ∧
    apply_profile ⟨chars "bad", 4000, 910, 0, 0, chars "arm too high"⟩ ⟨[], [], []⟩ =
      (⟨false, (validate_profile ⟨chars "bad", 4000, 910, 0, 0, chars "arm too high"⟩).2, false⟩,
       ⟨[], [], [⟨chars "bad", 4000, 910, 0, 0, chars "arm too high"⟩]⟩) := by
  have h := C2_amended_validator_ranges
    ⟨chars "bad", 4000, 910, 0, 0, chars "arm too high"⟩ ⟨[], [], []⟩ (by right; left; decide)
  exact ⟨by decide, h.1, h.2.1, h.2.2⟩

/-! ### Claim C5: apply-then-remove round trip -/

theorem wf_lit_append {lit : List Char} (x : List Char)
    (h1 : lit ≠ []) (h2 : '\n' ∉ lit) (hx : '\n' ∉ x) :
    lit ++ x ≠ [] ∧ '\n' ∉ lit ++ x := by
  refine ⟨fun h => h1 (List.append_eq_nil.mp h).1, fun hm => ?_⟩
  rcases List.mem_append.mp hm with h | h
  · exact h2 h
  · exact hx h

/-- Every line of the generated OVERKILL section is nonempty and
newline-free (for a profile with newline-free name and description). -/
theorem secCore_wf (p : OverclockProfile)
    (hn : '\n' ∉ p.name) (hd : '\n' ∉ p.description) :
    ∀ l ∈ secCore p, l ≠ [] ∧ '\n' ∉ l := by
  intro l hl
  by_cases hdelta : p.over_voltage_delta > 0
  · simp [secCore, secTail, hdelta] at hl
    rcases hl with rfl | rfl | rfl | rfl | rfl | rfl | rfl | rfl | rfl | rfl | rfl | rfl | rfl
    · exact ⟨by decide, by decide⟩
    · exact wf_lit_append _ (by decide) (by decide) hn
    · exact wf_lit_append _ (by decide) (by decide) hd
    · exact ⟨by decide, by decide⟩
    · exact ⟨by decide, by decide⟩
    · exact ⟨by decide, by decide⟩
    · exact ⟨by decide, by decide⟩
    · exact ⟨by decide, by decide⟩
    · exact ⟨by decide, by decide⟩
    · exact wf_lit_append _ (by decide) (by decide) (intStr_no_nl _)
    · exact wf_lit_append _ (by decide) (by decide) (intStr_no_nl _)
    · exact wf_lit_append _ (by decide) (by decide) (intStr_no_nl _)
    · exact wf_lit_append _ (by decide) (by decide) (intStr_no_nl _)
  · simp [secCore, secTail, hdelta] at hl
    rcases hl with rfl | rfl | rfl | rfl | rfl | rfl | rfl | rfl | rfl | rfl | rfl | rfl
    · exact ⟨by decide, by decide⟩
    · exact wf_lit_append _ (by decide) (by decide) hn
    · exact wf_lit_append _ (by decide) (by decide) hd
    · exact ⟨by decide, by decide⟩
    · exact ⟨by decide, by decide⟩
    · exact ⟨by decide, by decide⟩
    · exact ⟨by decide, by decide⟩
    · exact ⟨by decide, by decide⟩
    · exact ⟨by decide, by decide⟩
    · exact wf_lit_append _ (by decide) (by decide) (intStr_no_nl _)
    · exact wf_lit_append _ (by decide) (by decide) (intStr_no_nl _)
    · exact wf_lit_append _ (by decide) (by decide) (intStr_no_nl _)

/-- The content-level round trip: on a marker-free configuration, applying a
section and then removing it yields `rstrip` of the original content (the
`content[:start].rstrip()` in `remove_overclock` strips the two separator
newlines the apply added, together with any original trailing whitespace). -/
theorem removeContent_applyContent (p : OverclockProfile) (content : List Char)
    (hm : hasSub marker content = false)
    (hn : '\n' ∉ p.name) (hd : '\n' ∉ p.description) :
    removeContent (applyContent p content) = rstrip content := by
  have happly : applyContent p content = content ++ genSection p := by
    simp [applyContent, hm]
  have hsec : genSection p = '\n' :: '\n' :: (marker ++ ('\n' :: joinNL (secTail p ++ [[]]))) := by
    unfold genSection
    rw [show secCore p ++ [[]] = marker :: (secTail p ++ [[]]) from rfl,
      joinNL_cons marker (secTail p ++ [[]]) (by simp)]
  rw [happly, hsec]
  have hfind := @findSub_append_section marker (by decide) (by decide)
    content hm ('\n' :: joinNL (secTail p ++ [[]]))
  have hdrop : (content ++ '\n' :: '\n' :: (marker ++ ('\n' :: joinNL (secTail p ++ [[]])))).drop
      (content.length + 2) = marker ++ ('\n' :: joinNL (secTail p ++ [[]])) := by
    rw [drop_append_len content _ 2]
    rfl
  have hback : marker ++ ('\n' :: joinNL (secTail p ++ [[]])) = joinNL (secCore p ++ [[]]) := by
    rw [show secCore p ++ [[]] = marker :: (secTail p ++ [[]]) from rfl,
      joinNL_cons marker (secTail p ++ [[]]) (by simp)]
  have hnlnl : findSub ['\n', '\n']
      (marker ++ ('\n' :: joinNL (secTail p ++ [[]]))) = none := by
    rw [hback]
    exact findSub_nlnl_of_noNLNL _ (noNLNL_joinNL_lines (secCore p) (secCore_wf p hn hd))
  have htake : (content ++ '\n' :: '\n' :: (marker ++ ('\n' :: joinNL (secTail p ++ [[]])))).take
      (content.length + 2) = content ++ ['\n', '\n'] := by
    rw [take_append_len content _ 2]
    rfl
  unfold removeContent
  rw [hfind]
  simp only [hdrop, hnlnl, htake, rstrip_append_nlnl]

/-- Claim C5, amended.  For a marker-free starting configuration and a valid
profile with newline-free name and description, `apply_profile` followed by
`remove_overclock` leaves the configuration equal to the pre-apply content
with trailing whitespace stripped; in particular it is byte-identical
(modulo backup metadata) exactly when the pre-apply content had no trailing
whitespace. -/
theorem C5_amended_roundtrip (p : OverclockProfile) (s : Sys)
    (hm : hasSub marker s.config = false)
    (hv : (validate_profile p).1 = true)
    (hn : '\n' ∉ p.name) (hd : '\n' ∉ p.description) :
    (remove_overclock (apply_profile p s).2).2.config = rstrip s.config ∧
    (rstrip s.config = s.config →
      (remove_overclock (apply_profile p s).2).2.config = s.config) := by
  have h1 : (apply_profile p s).2.config = applyContent p s.config := by
    simp [apply_profile, hv]
  have h2 : (remove_overclock (apply_profile p s).2).2.config =
      removeContent (applyContent p s.config) := by
    simp [remove_overclock, h1]
  rw [h2, removeContent_applyContent p s.config hm hn hd]
  exact ⟨rfl, fun h => h⟩

/-- Witness for the amended C5 at a concrete configuration with no trailing
whitespace: the round trip is the identity there. -/
theorem C5_amended_roundtrip_witness :
    (remove_overclock (apply_profile stockProfile ⟨chars "x=1", [], []⟩).2).2.config
      = chars "x=1" :=
  (C5_amended_roundtrip stockProfile ⟨chars "x=1", [], []⟩
    (by decide) (by decide) (by decide) (by decide)).2 (by decide)

set_option maxRecDepth 100000 in
/-- Counterexample to claim C5 as stated: on the marker-free configuration
"a\n", apply-then-remove returns "a" — the original trailing newline is
lost, so the resource is not byte-identical to its pre-apply state. -/
theorem C5_counterexample :
    (remove_overclock (apply_profile stockProfile ⟨chars "a\n", [], []⟩).2).2.config
      ≠ chars "a\n" := by decide

/-! ### Claim C7: the OVERKILL section after two applies -/

/-- The OVERKILL section of a configuration, as delimited by
`remove_overclock`: from the marker to the next blank line (or end of file). -/
def sectionOf (content : List Char) : List Char :=
  match findSub marker content with
  | none => []
  | some s =>
    match findSub ['\n', '\n'] (content.drop s) with
    | none => content.drop s
    | some e => (content.drop s).take e

/-- Number of lines of the OVERKILL section starting with `key`. -/
def keyLineCount (key content : List Char) : Nat :=
  (splitNL (sectionOf content)).countP (fun l => pfx key l)

theorem sub4_of_no (p : OverclockProfile) {l : List Char}
    (h1 : pfx (chars "arm_freq=") l = false)
    (h2 : pfx (chars "gpu_freq=") l = false)
    (h3 : pfx (chars "over_voltage=") l = false)
    (h4 : pfx (chars "# Profile: ") l = false) :
    sub4 p l = l := by
  unfold sub4
  rw [subKeyLine_no h1, subKeyLine_no h2, subKeyLine_no h3, subProfLine_no h4]

theorem subProfLine_yes {name l : List Char}
    (h : pfx (chars "# Profile: ") l = true) :
    subProfLine name l = chars "# Profile: " ++ name := by
  simp [subProfLine, h]

theorem sub4_armline (p : OverclockProfile) :
    sub4 p (chars "arm_freq=" ++ intStr p.arm_freq)
      = chars "arm_freq=" ++ intStr p.arm_freq := by
  unfold sub4
  rw [subKeyLine_key_intStr,
    subKeyLine_no (pfx_false_of_mismatch _ _ _ (by decide) (by decide)),
    subKeyLine_no (pfx_false_of_mismatch _ _ _ (by decide) (by decide)),
    subProfLine_no (pfx_false_of_mismatch _ _ _ (by decide) (by decide))]

theorem sub4_gpuline (p : OverclockProfile) :
    sub4 p (chars "gpu_freq=" ++ intStr p.gpu_freq)
      = chars "gpu_freq=" ++ intStr p.gpu_freq := by
  unfold sub4
  rw [subKeyLine_no (pfx_false_of_mismatch _ _ _ (by decide) (by decide)),
    subKeyLine_key_intStr,
    subKeyLine_no (pfx_false_of_mismatch _ _ _ (by decide) (by decide)),
    subProfLine_no (pfx_false_of_mismatch _ _ _ (by decide) (by decide))]

theorem sub4_ovline (p : OverclockProfile) :
    sub4 p (chars "over_voltage=" ++ intStr p.over_voltage)
      = chars "over_voltage=" ++ intStr p.over_voltage := by
  unfold sub4
  rw [subKeyLine_no (pfx_false_of_mismatch _ _ _ (by decide) (by decide)),
    subKeyLine_no (pfx_false_of_mismatch _ _ _ (by decide) (by decide)),
    subKeyLine_key_intStr,
    subProfLine_no (pfx_false_of_mismatch _ _ _ (by decide) (by decide))]

theorem sub4_ovdline (p : OverclockProfile) :
    sub4 p (chars "over_voltage_delta=" ++ intStr p.over_voltage_delta)
      = chars "over_voltage_delta=" ++ intStr p.over_voltage_delta := by
  unfold sub4
  rw [subKeyLine_no (pfx_false_of_mismatch _ _ _ (by decide) (by decide)),
    subKeyLine_no (pfx_false_of_mismatch _ _ _ (by decide) (by decide)),
    subKeyLine_no (pfx_false_of_mismatch _ _ _ (by decide) (by decide)),
    subProfLine_no (pfx_false_of_mismatch _ _ _ (by decide) (by decide))]

theorem sub4_profline (p : OverclockProfile) :
    sub4 p (chars "# Profile: " ++ p.name) = chars "# Profile: " ++ p.name := by
  unfold sub4
  rw [subKeyLine_no (pfx_false_of_mismatch _ _ _ (by decide) (by decide)),
    subKeyLine_no (pfx_false_of_mismatch _ _ _ (by decide) (by decide)),
    subKeyLine_no (pfx_false_of_mismatch _ _ _ (by decide) (by decide)),
    subProfLine_yes (pfx_append_self _ _)]

/-- The image of the description line of the section under the four
substitutions. -/
def descImage (p : OverclockProfile) : List Char :=
  sub4 p (chars "# " ++ p.description)

theorem descImage_spec (p : OverclockProfile) :
    descImage p = chars "# " ++ p.description ∨
    descImage p = chars "# Profile: " ++ p.name := by
  unfold descImage sub4
  rw [subKeyLine_no (pfx_false_of_mismatch _ _ _ (by decide) (by decide)),
    subKeyLine_no (pfx_false_of_mismatch _ _ _ (by decide) (by decide)),
    subKeyLine_no (pfx_false_of_mismatch _ _ _ (by decide) (by decide))]
  unfold subProfLine
  by_cases h : pfx (chars "# Profile: ") (chars "# " ++ p.description) = true
  · rw [if_pos h]; right; rfl
  · rw [if_neg h]; left; rfl

theorem descImage_hash (p : OverclockProfile) :
    ∃ t, descImage p = '#' :: t := by
  rcases descImage_spec p with h | h
  · exact ⟨' ' :: p.description, h⟩
  · exact ⟨chars " Profile: " ++ p.name, h⟩

/-- The image of the section lines under the four substitutions of
`_update_overclock_section` with the same profile: only the description line
can change (when the description itself starts with `Profile: `). -/
def secCoreImg (p : OverclockProfile) : List (List Char) :=
  marker :: (chars "# Profile: " ++ p.name) :: descImage p ::
  ([chars "dtparam=pciex1_gen=3",
    chars "gpu_mem=1024",
    chars "dtoverlay=vc4-kms-v3d-pi5",
    chars "max_framebuffers=3",
    chars "hdmi_enable_4kp60=1",
    chars "force_turbo=1",
    chars "arm_freq=" ++ intStr p.arm_freq,
    chars "gpu_freq=" ++ intStr p.gpu_freq,
    chars "over_voltage=" ++ intStr p.over_voltage]
   ++ (if p.over_voltage_delta > 0
       then [chars "over_voltage_delta=" ++ intStr p.over_voltage_delta] else []))

theorem map_sub4_secCore (p : OverclockProfile) :
    (secCore p).map (sub4 p) = secCoreImg p := by
  by_cases hdelta : p.over_voltage_delta > 0
  · simp only [secCore, secTail, secCoreImg, if_pos hdelta, List.map_cons,
      List.map_append, List.map_nil, List.cons_append, List.nil_append]
    rw [show sub4 p (chars "# " ++ p.description) = descImage p from rfl,
      sub4_of_no p (by decide) (by decide) (by decide) (by decide),
      sub4_profline, sub4_armline, sub4_gpuline, sub4_ovline, sub4_ovdline,
      sub4_of_no p (by decide) (by decide) (by decide) (by decide),
      sub4_of_no p (by decide) (by decide) (by decide) (by decide),
      sub4_of_no p (by decide) (by decide) (by decide) (by decide),
      sub4_of_no p (by decide) (by decide) (by decide) (by decide),
      sub4_of_no p (by decide) (by decide) (by decide) (by decide),
      sub4_of_no p (by decide) (by decide) (by decide) (by decide)]
  · simp only [secCore, secTail, secCoreImg, if_neg hdelta, List.map_cons,
      List.map_append, List.map_nil, List.cons_append, List.nil_append]
    rw [show sub4 p (chars "# " ++ p.description) = descImage p from rfl,
      sub4_of_no p (by decide) (by decide) (by decide) (by decide),
      sub4_profline, sub4_armline, sub4_gpuline, sub4_ovline,
      sub4_of_no p (by decide) (by decide) (by decide) (by decide),
      sub4_of_no p (by decide) (by decide) (by decide) (by decide),
      sub4_of_no p (by decide) (by decide) (by decide) (by decide),
      sub4_of_no p (by decide) (by decide) (by decide) (by decide),
      sub4_of_no p (by decide) (by decide) (by decide) (by decide),
      sub4_of_no p (by decide) (by decide) (by decide) (by decide)]

theorem marker_head : marker = '#' :: chars " OVERKILL PI 5 CONFIGURATION" := rfl

/-- `subKeyLine` with a hash-free key and value never introduces the marker. -/
theorem subKeyLine_marker_free {key val l : List Char}
    (hk : '#' ∉ key) (hval : '#' ∉ val)
    (h : hasSub marker l = false) :
    hasSub marker (subKeyLine key val l) = false := by
  unfold subKeyLine
  by_cases hp : pfx key l = true
  · rw [if_pos hp]
    by_cases hds : ((l.drop key.length).takeWhile Char.isDigit).isEmpty = true
    · rw [if_pos hds]; exact h
    · rw [if_neg hds]
      cases hres : hasSub marker
          (key ++ val ++ (l.drop key.length).dropWhile Char.isDigit) with
      | false => rfl
      | true =>
        exfalso
        rw [marker_head, List.append_assoc] at hres
        have h2 := hasSub_of_head_notin
          hk hres
        have h3 := hasSub_of_head_notin hval h2
        rw [← marker_head] at h3
        have h4 := hasSub_dropWhile Char.isDigit h3
        have h5 := hasSub_drop key.length h4
        rw [h] at h5
        exact Bool.false_ne_true h5
  · rw [if_neg hp]; exact h

/-- `subProfLine` with a hash-free name never introduces the marker. -/
theorem subProfLine_marker_free {name l : List Char}
    (hname : '#' ∉ name)
    (h : hasSub marker l = false) :
    hasSub marker (subProfLine name l) = false := by
  unfold subProfLine
  by_cases hp : pfx (chars "# Profile: ") l = true
  · rw [if_pos hp]
    cases hres : hasSub marker (chars "# Profile: " ++ name) with
    | false => rfl
    | true =>
      exfalso
      have hshape : chars "# Profile: " ++ name = '#' :: (chars " Profile: " ++ name) := rfl
      rw [hshape] at hres
      rw [marker_head] at hres
      rcases hasSub_cons_cases hres with h2 | h2
      · simp [pfx] at h2
      · have h3 := hasSub_of_head_notin (show '#' ∉ chars " Profile: " from by decide) h2
        exact hname (head_mem_of_hasSub h3)
  · rw [if_neg hp]; exact h

/-- `sub4` preserves marker-freeness of a line (hash-free profile name). -/
theorem sub4_marker_free (p : OverclockProfile) {l : List Char}
    (hname : '#' ∉ p.name)
    (h : hasSub marker l = false) :
    hasSub marker (sub4 p l) = false := by
  unfold sub4
  apply subProfLine_marker_free hname
  apply subKeyLine_marker_free (by decide) (intStr_no_hash _)
  apply subKeyLine_marker_free (by decide) (intStr_no_hash _)
  apply subKeyLine_marker_free (by decide) (intStr_no_hash _)
  exact h

/-- Every line of `secCoreImg` is nonempty and newline-free. -/
theorem secCoreImg_wf (p : OverclockProfile)
    (hn : '\n' ∉ p.name) (hd : '\n' ∉ p.description) :
    ∀ l ∈ secCoreImg p, l ≠ [] ∧ '\n' ∉ l := by
  have hdesc : descImage p ≠ [] ∧ '\n' ∉ descImage p := by
    rcases descImage_spec p with h | h <;> rw [h]
    · exact wf_lit_append _ (by decide) (by decide) hd
    · exact wf_lit_append _ (by decide) (by decide) hn
  intro l hl
  by_cases hdelta : p.over_voltage_delta > 0
  · simp [secCoreImg, hdelta] at hl
    rcases hl with rfl | rfl | rfl | rfl | rfl | rfl | rfl | rfl | rfl | rfl | rfl | rfl | rfl
    · exact ⟨by decide, by decide⟩
    · exact wf_lit_append _ (by decide) (by decide) hn
    · exact hdesc
    · exact ⟨by decide, by decide⟩
    · exact ⟨by decide, by decide⟩
    · exact ⟨by decide, by decide⟩
    · exact ⟨by decide, by decide⟩
    · exact ⟨by decide, by decide⟩
    · exact ⟨by decide, by decide⟩
    · exact wf_lit_append _ (by decide) (by decide) (intStr_no_nl _)
    · exact wf_lit_append _ (by decide) (by decide) (intStr_no_nl _)
    · exact wf_lit_append _ (by decide) (by decide) (intStr_no_nl _)
    · exact wf_lit_append _ (by decide) (by decide) (intStr_no_nl _)
  · simp [secCoreImg, hdelta] at hl
    rcases hl with rfl | rfl | rfl | rfl | rfl | rfl | rfl | rfl | rfl | rfl | rfl | rfl
    · exact ⟨by decide, by decide⟩
    · exact wf_lit_append _ (by decide) (by decide) hn
    · exact hdesc
    · exact ⟨by decide, by decide⟩
    · exact ⟨by decide, by decide⟩
    · exact ⟨by decide, by decide⟩
    · exact ⟨by decide, by decide⟩
    · exact ⟨by decide, by decide⟩
    · exact ⟨by decide, by decide⟩
    · exact wf_lit_append _ (by decide) (by decide) (intStr_no_nl _)
    · exact wf_lit_append _ (by decide) (by decide) (intStr_no_nl _)
    · exact wf_lit_append _ (by decide) (by decide) (intStr_no_nl _)

/-- The delta-key substitution leaves every line of `secCoreImg` unchanged. -/
theorem ovdsub_secCoreImg (p : OverclockProfile) :
    (secCoreImg p).map
      (subKeyLine (chars "over_voltage_delta=") (intStr p.over_voltage_delta))
      = secCoreImg p := by
  obtain ⟨t, ht⟩ := descImage_hash p
  by_cases hdelta : p.over_voltage_delta > 0
  · simp only [secCoreImg, if_pos hdelta, List.map_cons, List.map_append, List.map_nil,
      List.cons_append, List.nil_append]
    rw [subKeyLine_no (by decide),
      subKeyLine_no (pfx_false_of_mismatch _ _ _ (by decide) (by decide)),
      show subKeyLine (chars "over_voltage_delta=") (intStr p.over_voltage_delta)
        (descImage p) = descImage p from by
          rw [ht]; exact subKeyLine_no (pfx_head_ne (by decide) _ _),
      subKeyLine_no (by decide), subKeyLine_no (by decide), subKeyLine_no (by decide),
      subKeyLine_no (by decide), subKeyLine_no (by decide), subKeyLine_no (by decide),
      subKeyLine_no (pfx_false_of_mismatch _ _ _ (by decide) (by decide)),
      subKeyLine_no (pfx_false_of_mismatch _ _ _ (by decide) (by decide)),
      subKeyLine_no (pfx_false_of_mismatch _ _ _ (by decide) (by decide)),
      subKeyLine_key_intStr]
  · simp only [secCoreImg, if_neg hdelta, List.map_cons, List.map_append, List.map_nil,
      List.cons_append, List.nil_append]
    rw [subKeyLine_no (by decide),
      subKeyLine_no (pfx_false_of_mismatch _ _ _ (by decide) (by decide)),
      show subKeyLine (chars "over_voltage_delta=") (intStr p.over_voltage_delta)
        (descImage p) = descImage p from by
          rw [ht]; exact subKeyLine_no (pfx_head_ne (by decide) _ _),
      subKeyLine_no (by decide), subKeyLine_no (by decide), subKeyLine_no (by decide),
      subKeyLine_no (by decide), subKeyLine_no (by decide), subKeyLine_no (by decide),
      subKeyLine_no (pfx_false_of_mismatch _ _ _ (by decide) (by decide)),
      subKeyLine_no (pfx_false_of_mismatch _ _ _ (by decide) (by decide)),
      subKeyLine_no (pfx_false_of_mismatch _ _ _ (by decide) (by decide))]

theorem sectionOf_eq_to_eof {content : List Char} {s : Nat}
    (h : findSub marker content = some s)
    (h2 : findSub ['\n', '\n'] (content.drop s) = none) :
    sectionOf content = content.drop s := by
  unfold sectionOf
  rw [h]
  show (match findSub ['\n', '\n'] (content.drop s) with
        | none => content.drop s
        | some e => (content.drop s).take e) = content.drop s
  rw [h2]

theorem countP_arm_img (p : OverclockProfile) :
    (secCoreImg p ++ [[]]).countP (fun l => pfx (chars "arm_freq=") l) = 1 := by
  obtain ⟨t, ht⟩ := descImage_hash p
  have hdesc : pfx (chars "arm_freq=") (descImage p) = false := by
    rw [ht]; exact pfx_head_ne (by decide) _ _
  have hprof : pfx (chars "arm_freq=") (chars "# Profile: " ++ p.name) = false :=
    pfx_false_of_mismatch _ _ _ (by decide) (by decide)
  have harm : pfx (chars "arm_freq=") (chars "arm_freq=" ++ intStr p.arm_freq) = true :=
    pfx_append_self _ _
  have hgpu : pfx (chars "arm_freq=") (chars "gpu_freq=" ++ intStr p.gpu_freq) = false :=
    pfx_false_of_mismatch _ _ _ (by decide) (by decide)
  have hov : pfx (chars "arm_freq=") (chars "over_voltage=" ++ intStr p.over_voltage) = false :=
    pfx_false_of_mismatch _ _ _ (by decide) (by decide)
  have hovd : pfx (chars "arm_freq=")
      (chars "over_voltage_delta=" ++ intStr p.over_voltage_delta) = false :=
    pfx_false_of_mismatch _ _ _ (by decide) (by decide)
  by_cases hdelta : p.over_voltage_delta > 0 <;>
    simp [secCoreImg, hdelta, List.countP_cons, List.countP_append,
      hdesc, hprof, harm, hgpu, hov, hovd,
      show pfx (chars "arm_freq=") marker = false from by decide,
      show pfx (chars "arm_freq=") (chars "dtparam=pciex1_gen=3") = false from by decide,
      show pfx (chars "arm_freq=") (chars "gpu_mem=1024") = false from by decide,
      show pfx (chars "arm_freq=") (chars "dtoverlay=vc4-kms-v3d-pi5") = false from by decide,
      show pfx (chars "arm_freq=") (chars "max_framebuffers=3") = false from by decide,
      show pfx (chars "arm_freq=") (chars "hdmi_enable_4kp60=1") = false from by decide,
      show pfx (chars "arm_freq=") (chars "force_turbo=1") = false from by decide,
      show pfx (chars "arm_freq=") [] = false from by decide]

theorem countP_gpu_img (p : OverclockProfile) :
    (secCoreImg p ++ [[]]).countP (fun l => pfx (chars "gpu_freq=") l) = 1 := by
  obtain ⟨t, ht⟩ := descImage_hash p
  have hdesc : pfx (chars "gpu_freq=") (descImage p) = false := by
    rw [ht]; exact pfx_head_ne (by decide) _ _
  have hprof : pfx (chars "gpu_freq=") (chars "# Profile: " ++ p.name) = false :=
    pfx_false_of_mismatch _ _ _ (by decide) (by decide)
  have harm : pfx (chars "gpu_freq=") (chars "arm_freq=" ++ intStr p.arm_freq) = false :=
    pfx_false_of_mismatch _ _ _ (by decide) (by decide)
  have hgpu : pfx (chars "gpu_freq=") (chars "gpu_freq=" ++ intStr p.gpu_freq) = true :=
    pfx_append_self _ _
  have hov : pfx (chars "gpu_freq=") (chars "over_voltage=" ++ intStr p.over_voltage) = false :=
    pfx_false_of_mismatch _ _ _ (by decide) (by decide)
  have hovd : pfx (chars "gpu_freq=")
      (chars "over_voltage_delta=" ++ intStr p.over_voltage_delta) = false :=
    pfx_false_of_mismatch _ _ _ (by decide) (by decide)
  by_cases hdelta : p.over_voltage_delta > 0 <;>
    simp [secCoreImg, hdelta, List.countP_cons, List.countP_append,
      hdesc, hprof, harm, hgpu, hov, hovd,
      show pfx (chars "gpu_freq=") marker = false from by decide,
      show pfx (chars "gpu_freq=") (chars "dtparam=pciex1_gen=3") = false from by decide,
      show pfx (chars "gpu_freq=") (chars "gpu_mem=1024") = false from by decide,
      show pfx (chars "gpu_freq=") (chars "dtoverlay=vc4-kms-v3d-pi5") = false from by decide,
      show pfx (chars "gpu_freq=") (chars "max_framebuffers=3") = false from by decide,
      show pfx (chars "gpu_freq=") (chars "hdmi_enable_4kp60=1") = false from by decide,
      show pfx (chars "gpu_freq=") (chars "force_turbo=1") = false from by decide,
      show pfx (chars "gpu_freq=") [] = false from by decide]

theorem countP_ov_img (p : OverclockProfile) :
    (secCoreImg p ++ [[]]).countP (fun l => pfx (chars "over_voltage=") l) = 1 := by
  obtain ⟨t, ht⟩ := descImage_hash p
  have hdesc : pfx (chars "over_voltage=") (descImage p) = false := by
    rw [ht]; exact pfx_head_ne (by decide) _ _
  have hprof : pfx (chars "over_voltage=") (chars "# Profile: " ++ p.name) = false :=
    pfx_false_of_mismatch _ _ _ (by decide) (by decide)
  have harm : pfx (chars "over_voltage=") (chars "arm_freq=" ++ intStr p.arm_freq) = false :=
    pfx_false_of_mismatch _ _ _ (by decide) (by decide)
  have hgpu : pfx (chars "over_voltage=") (chars "gpu_freq=" ++ intStr p.gpu_freq) = false :=
    pfx_false_of_mismatch _ _ _ (by decide) (by decide)
  have hov : pfx (chars "over_voltage=") (chars "over_voltage=" ++ intStr p.over_voltage) = true :=
    pfx_append_self _ _
  have hovd : pfx (chars "over_voltage=")
      (chars "over_voltage_delta=" ++ intStr p.over_voltage_delta) = false :=
    pfx_false_of_mismatch _ _ _ (by decide) (by decide)
  by_cases hdelta : p.over_voltage_delta > 0 <;>
    simp [secCoreImg, hdelta, List.countP_cons, List.countP_append,
      hdesc, hprof, harm, hgpu, hov, hovd,
      show pfx (chars "over_voltage=") marker = false from by decide,
      show pfx (chars "over_voltage=") (chars "dtparam=pciex1_gen=3") = false from by decide,
      show pfx (chars "over_voltage=") (chars "gpu_mem=1024") = false from by decide,
      show pfx (chars "over_voltage=") (chars "dtoverlay=vc4-kms-v3d-pi5") = false from by decide,
      show pfx (chars "over_voltage=") (chars "max_framebuffers=3") = false from by decide,
      show pfx (chars "over_voltage=") (chars "hdmi_enable_4kp60=1") = false from by decide,
      show pfx (chars "over_voltage=") (chars "force_turbo=1") = false from by decide,
      show pfx (chars "over_voltage=") [] = false from by decide]

theorem hasSub_cons_of {pat : List Char} (c : Char) {rest : List Char}
    (h : hasSub pat rest = true) : hasSub pat (c :: rest) = true := by
  rw [hasSub_cons, h]; simp

/-- Extracting the OVERKILL section from `joinNL (A ++ [] :: (secCoreImg p ++ [[]]))`
when the prefix `A` is marker-free: the section lines are exactly
`secCoreImg p` followed by the final empty line. -/
theorem sectionOf_assembled (p : OverclockProfile) (A : List (List Char))
    (hAne : A ≠ [])
    (hAfree : hasSub marker (joinNL A) = false)
    (hn : '\n' ∉ p.name) (hd : '\n' ∉ p.description) :
    splitNL (sectionOf (joinNL (A ++ [] :: (secCoreImg p ++ [[]]))))
      = secCoreImg p ++ [[]] := by
  have himgnl : ∀ l ∈ secCoreImg p ++ [[]], '\n' ∉ l := by
    intro l hl
    rcases List.mem_append.mp hl with h | h
    · exact (secCoreImg_wf p hn hd l h).2
    · rcases List.mem_singleton.mp h with rfl; simp
  have h1 : joinNL (A ++ [] :: (secCoreImg p ++ [[]])) =
      joinNL A ++ '\n' :: '\n' :: joinNL (secCoreImg p ++ [[]]) := by
    rw [joinNL_append A _ hAne (by simp), joinNL_cons [] _ (by simp)]
    rfl
  have h3 : joinNL (secCoreImg p ++ [[]]) =
      marker ++ '\n' :: joinNL ((secCoreImg p).tail ++ [[]]) := by
    rw [show secCoreImg p ++ [[]] = marker :: ((secCoreImg p).tail ++ [[]]) from rfl,
      joinNL_cons marker _ (by simp)]
  have hfind : findSub marker (joinNL A ++ '\n' :: '\n' ::
      (marker ++ '\n' :: joinNL ((secCoreImg p).tail ++ [[]]))) =
      some ((joinNL A).length + 2) :=
    findSub_append_section (by decide) (by decide) (joinNL A) hAfree _
  have hdrop : (joinNL A ++ '\n' :: '\n' ::
      (marker ++ '\n' :: joinNL ((secCoreImg p).tail ++ [[]]))).drop
      ((joinNL A).length + 2) =
      marker ++ '\n' :: joinNL ((secCoreImg p).tail ++ [[]]) := by
    rw [drop_append_len]
    rfl
  have hnone : findSub ['\n', '\n']
      (marker ++ '\n' :: joinNL ((secCoreImg p).tail ++ [[]])) = none := by
    rw [← h3]
    exact findSub_nlnl_of_noNLNL _
      (noNLNL_joinNL_lines (secCoreImg p) (secCoreImg_wf p hn hd))
  rw [h1, h3, sectionOf_eq_to_eof hfind (by rw [hdrop]; exact hnone), hdrop, ← h3]
  exact splitNL_joinNL _ (by simp) himgnl

theorem line_of_content_marker_free {content l : List Char}
    (hm : hasSub marker content = false) (hl : l ∈ splitNL content) :
    hasSub marker l = false := by
  cases h : hasSub marker l with
  | false => rfl
  | true =>
    exfalso
    have := hasSub_joinNL_of_mem hl h
    rw [joinNL_splitNL] at this
    rw [hm] at this
    exact Bool.false_ne_true this

/-- The line lists after two applies: the configuration consists of the
(transformed) original lines, a blank separator, the transformed section
lines and a final empty line. -/
theorem sectionLines_after_two_applies (p : OverclockProfile) (content : List Char)
    (hm : hasSub marker content = false)
    (hn : '\n' ∉ p.name) (hhash : '#' ∉ p.name) (hd : '\n' ∉ p.description) :
    splitNL (sectionOf (applyContent p (applyContent p content)))
      = secCoreImg p ++ [[]] := by
  have hsecnl : ∀ l ∈ secCore p ++ [[]], '\n' ∉ l := by
    intro l hl
    rcases List.mem_append.mp hl with h | h
    · exact (secCore_wf p hn hd l h).2
    · rcases List.mem_singleton.mp h with rfl; simp
  have happly1 : applyContent p content = content ++ genSection p := by
    simp [applyContent, hm]
  have hmarkT : joinNL (secCore p ++ [[]]) =
      marker ++ '\n' :: joinNL (secTail p ++ [[]]) := by
    rw [show secCore p ++ [[]] = marker :: (secTail p ++ [[]]) from rfl,
      joinNL_cons marker _ (by simp)]
  have hc1marker : hasSub marker (content ++ genSection p) = true := by
    apply hasSub_append_right
    unfold genSection
    apply hasSub_cons_of
    apply hasSub_cons_of
    rw [hmarkT]
    exact hasSub_of_pfx (pfx_append_self _ _)
  have happly2 : applyContent p (applyContent p content) =
      updateSection (content ++ genSection p) p := by
    rw [happly1]
    simp [applyContent, hc1marker]
  have hlines : splitNL (content ++ genSection p) =
      splitNL content ++ [] :: (secCore p ++ [[]]) := by
    show splitNL (content ++ '\n' :: ('\n' :: joinNL (secCore p ++ [[]]))) = _
    rw [splitNL_append_nl content, splitNL_cons_nl,
      splitNL_joinNL _ (by simp) hsecnl]
  have hmapped : (splitNL (content ++ genSection p)).map (sub4 p) =
      (splitNL content).map (sub4 p) ++ [] :: (secCoreImg p ++ [[]]) := by
    rw [hlines]
    simp only [List.map_append, List.map_cons, List.map_nil]
    rw [map_sub4_secCore,
      sub4_of_no p (by decide) (by decide) (by decide) (by decide)]
  have hAfree : ∀ (A : List (List Char)),
      (∀ l ∈ A, hasSub marker l = false) → hasSub marker (joinNL A) = false := by
    intro A hA
    cases h : hasSub marker (joinNL A) with
    | false => rfl
    | true =>
      exfalso
      rcases hasSub_joinNL_cases (by decide) (by decide) A h with ⟨l, hl, h2⟩
      rw [hA l hl] at h2
      exact Bool.false_ne_true h2
  have hA'free : ∀ l ∈ (splitNL content).map (sub4 p), hasSub marker l = false := by
    intro l hl
    rcases List.mem_map.mp hl with ⟨l0, hl0, rfl⟩
    exact sub4_marker_free p hhash (line_of_content_marker_free hm hl0)
  rw [happly2]
  unfold updateSection deltaPass
  rw [hmapped]
  by_cases hdelta : p.over_voltage_delta > 0
  · rw [if_pos hdelta]
    have hovdmem : (chars "over_voltage_delta=" ++ intStr p.over_voltage_delta) ∈
        (splitNL content).map (sub4 p) ++ [] :: (secCoreImg p ++ [[]]) := by
      apply List.mem_append_right
      apply List.mem_cons_of_mem
      apply List.mem_append_left
      simp [secCoreImg, hdelta]
    have hhasovd : hasSub (chars "over_voltage_delta=")
        (joinNL ((splitNL content).map (sub4 p) ++ [] :: (secCoreImg p ++ [[]]))) = true :=
      hasSub_joinNL_of_mem hovdmem (hasSub_of_pfx (pfx_append_self _ _))
    rw [if_pos hhasovd]
    have hmap2 : ((splitNL content).map (sub4 p) ++ [] :: (secCoreImg p ++ [[]])).map
        (subKeyLine (chars "over_voltage_delta=") (intStr p.over_voltage_delta)) =
        ((splitNL content).map (sub4 p)).map
          (subKeyLine (chars "over_voltage_delta=") (intStr p.over_voltage_delta)) ++
        [] :: (secCoreImg p ++ [[]]) := by
      simp only [List.map_append, List.map_cons, List.map_nil]
      rw [ovdsub_secCoreImg, subKeyLine_no (by decide)]
    rw [hmap2]
    apply sectionOf_assembled p _ (by simp [splitNL_ne_nil]) _ hn hd
    apply hAfree
    intro l hl
    rcases List.mem_map.mp hl with ⟨l0, hl0, rfl⟩
    exact subKeyLine_marker_free (by decide) (intStr_no_hash _) (hA'free l0 hl0)
  · rw [if_neg hdelta]
    apply sectionOf_assembled p _ (by simp [splitNL_ne_nil]) _ hn hd
    exact hAfree _ hA'free

/-- Claim C7, amended.  For a valid profile whose name has no newline and no
hash and whose description has no newline, and for every starting
configuration that does not already contain the OVERKILL marker, applying
the profile twice in a row yields a configuration whose OVERKILL section
contains exactly one `arm_freq=` line, one `gpu_freq=` line and one
`over_voltage=` line. -/
theorem C7_amended_section_keys (p : OverclockProfile) (s : Sys)
    (hm : hasSub marker s.config = false)
    (hv : (validate_profile p).1 = true)
    (hn : '\n' ∉ p.name) (hhash : '#' ∉ p.name) (hd : '\n' ∉ p.description) :
    keyLineCount (chars "arm_freq=") (apply_profile p (apply_profile p s).2).2.config = 1 ∧
    keyLineCount (chars "gpu_freq=") (apply_profile p (apply_profile p s).2).2.config = 1 ∧
    keyLineCount (chars "over_voltage=") (apply_profile p (apply_profile p s).2).2.config = 1 := by
  have hc : (apply_profile p (apply_profile p s).2).2.config =
      applyContent p (applyContent p s.config) := by
    simp [apply_profile, hv]
  rw [hc]
  unfold keyLineCount
  rw [sectionLines_after_two_applies p s.config hm hn hhash hd]
  exact ⟨countP_arm_img p, countP_gpu_img p, countP_ov_img p⟩

set_option maxRecDepth 1000000 in
/-- Witness for the amended C7: two applies of the aggressive profile (which
has a positive voltage delta) to an empty configuration. -/
theorem C7_amended_section_keys_witness :
    keyLineCount (chars "arm_freq=")
      (apply_profile ⟨chars "aggressive", 3000, 1050, 6, 50000, chars "Aggressive overclock"⟩
        (apply_profile ⟨chars "aggressive", 3000, 1050, 6, 50000, chars "Aggressive overclock"⟩
          ⟨[], [], []⟩).2).2.config = 1 :=
  (C7_amended_section_keys
    ⟨chars "aggressive", 3000, 1050, 6, 50000, chars "Aggressive overclock"⟩
    ⟨[], [], []⟩ (by decide) (by decide) (by decide) (by decide) (by decide)).1

set_option maxRecDepth 1000000 in
/-- Counterexample to claim C7 as stated ("every starting configuration
content"): if the starting content already consists of a bare marker line,
the update path finds no key lines to rewrite, and after two applies of the
(valid) stock profile the OVERKILL section contains zero `arm_freq=` lines
instead of exactly one. -/
theorem C7_counterexample :
    (validate_profile stockProfile).1 = true ∧
    keyLineCount (chars "arm_freq=")
      ((apply_profile stockProfile (apply_profile stockProfile
        ⟨chars "# OVERKILL PI 5 CONFIGURATION\n", [], []⟩).2).2.config) = 0 := by
  exact ⟨by decide, by decide⟩

/-! ### Thermal reader: throttle decode (`thermal_monitor.py` lines 193-217)
and the final throttle check of the silicon tester
(`silicon_tester.py` lines 290-305) -/

/-- The four flags decoded from the `vcgencmd get_throttled` status word. -/
structure ThrottleStatus where
  throttled : Bool
  under_voltage : Bool
  freq_capped : Bool
  soft_temp_limit : Bool
deriving DecidableEq, Repr

/-- `ThermalMonitor._get_throttle_status`, applied to the parsed 32-bit
status word (the successful `vcgencmd` path). -/
def get_throttle_status (w : Nat) : ThrottleStatus :=
  { under_voltage := (w &&& 0x1) != 0
  , freq_capped := (w &&& 0x2) != 0
  , throttled := (w &&& 0x4) != 0
  , soft_temp_limit := (w &&& 0x8) != 0 }

/-- `SiliconTester._check_throttling` on the parsed status word: the whole
word is compared against zero. -/
def check_throttling (w : Nat) : Bool := w != 0

theorem and_two_pow_ne_zero (w i : Nat) :
    ((w &&& 2 ^ i) != 0) = w.testBit i := by
  rw [Nat.and_two_pow]
  cases h : w.testBit i with
  | false => simp
  | true =>
    have : 0 < 2 ^ i := Nat.pos_pow_of_pos i (by omega)
    simp [h]

/-- Claim C6.  The Thermal Reader decodes the 32-bit throttle word into the
four documented flags by bitmask (bit 0 = under-voltage, bit 1 = frequency
capped, bit 2 = currently throttled, bit 3 = soft temperature limit), and
whenever any of the four flags is set, the silicon tester's aggregate
throttle check reports `true`. -/
theorem C6_throttle_decode (w : Nat) :
    (get_throttle_status w).under_voltage = w.testBit 0 ∧
    (get_throttle_status w).freq_capped = w.testBit 1 ∧
    (get_throttle_status w).throttled = w.testBit 2 ∧
    (get_throttle_status w).soft_temp_limit = w.testBit 3 ∧
    ((get_throttle_status w).under_voltage = true ∨
     (get_throttle_status w).freq_capped = true ∨
     (get_throttle_status w).throttled = true ∨
     (get_throttle_status w).soft_temp_limit = true →
       check_throttling w = true) := by
  refine ⟨?_, ?_, ?_, ?_, ?_⟩
  · exact and_two_pow_ne_zero w 0
  · exact and_two_pow_ne_zero w 1
  · exact and_two_pow_ne_zero w 2
  · exact and_two_pow_ne_zero w 3
  · intro h
    have hw : w ≠ 0 := by
      rintro rfl
      simp [get_throttle_status] at h
    simpa [check_throttling] using hw

/-- Witness for C6 at the word 0b1011: under-voltage, frequency-capped and
soft-temperature-limit set, aggregate throttle check true. -/
theorem C6_throttle_decode_witness :
    (get_throttle_status 11).under_voltage = true ∧
    (get_throttle_status 11).freq_capped = true ∧
    (get_throttle_status 11).throttled = false ∧
    (get_throttle_status 11).soft_temp_limit = true ∧
    check_throttling 11 = true := by
  have h := C6_throttle_decode 11
  exact ⟨by rw [h.1]; decide, by rw [h.2.1]; decide, by rw [h.2.2.1]; decide,
    by rw [h.2.2.2.1]; decide, h.2.2.2.2 (by left; rw [h.1]; decide)⟩

/-! ### Silicon tester data model and per-profile result computation
(`silicon_tester.py`) -/

/-- `StressTestResult` (`silicon_tester.py` lines 19-28).  Temperatures and
durations (Python floats) are modelled as rationals. -/
structure StressTestResult where
  profile_name : List Char
  stable : Bool
  max_temp : ℚ
  avg_temp : ℚ
  throttled : Bool
  errors : List (List Char)
  duration : ℚ
deriving DecidableEq, Repr

/-- `SiliconGrade` (`silicon_tester.py` lines 31-38). -/
structure SiliconGrade where
  grade : List Char
  description : List Char
  max_stable_profile : List Char
  recommended_profile : List Char
  test_results : List StressTestResult
deriving DecidableEq, Repr

/-- Python `max(temps)` with the `if self._temps else 0` guard. -/
def listMax : List ℚ → ℚ
  | [] => 0
  | t :: ts => ts.foldl max t

/-- Python `sum(temps) / len(temps)` with the empty guard. -/
def listAvg (ts : List ℚ) : ℚ :=
  if ts = [] then 0 else ts.sum / ts.length

/-- The result computation at the end of `SiliconTester._test_profile`
(lines 210-234): max/avg of the recorded series, the final throttle check,
and the stability verdict. -/
def computeResult (nm : List Char) (aborted : Bool) (errs : List (List Char))
    (temps : List ℚ) (thr : Bool) (dur : ℚ) : StressTestResult :=
  { profile_name := nm
  , stable := !aborted && errs.isEmpty && decide (listMax temps < 85) && !thr
  , max_temp := listMax temps
  , avg_temp := listAvg temps
  , throttled := thr
  , errors := errs
  , duration := dur }

theorem foldl_max_spec (a : ℚ) (ts : List ℚ) :
    (ts.foldl max a ∈ a :: ts) ∧ (∀ t ∈ a :: ts, t ≤ ts.foldl max a) := by
  induction ts generalizing a with
  | nil => exact ⟨by simp, by simp⟩
  | cons b bs ih =>
    have h := ih (max a b)
    constructor
    · rcases List.mem_cons.mp h.1 with h1 | h1
      · rw [List.foldl_cons, h1]
        rcases max_choice a b with hm | hm <;> rw [hm] <;> simp
      · simp only [List.foldl_cons]
        exact List.mem_cons_of_mem _ (List.mem_cons_of_mem _ h1)
    · intro t ht
      rcases List.mem_cons.mp ht with rfl | ht2
      · exact le_trans (le_max_left t b) (h.2 _ (by simp))
      · rcases List.mem_cons.mp ht2 with rfl | ht3
        · exact le_trans (le_max_right a t) (h.2 _ (by simp))
        · exact h.2 t (List.mem_cons_of_mem _ ht3)

theorem listMax_mem {ts : List ℚ} (h : ts ≠ []) : listMax ts ∈ ts := by
  cases ts with
  | nil => exact absurd rfl h
  | cons a as => exact (foldl_max_spec a as).1

theorem listMax_ub {ts : List ℚ} : ∀ t ∈ ts, t ≤ listMax ts := by
  cases ts with
  | nil => simp
  | cons a as => exact (foldl_max_spec a as).2

/-- Claim C4.  The stability verdict is true iff the test was not aborted,
the error list is empty, the maximum recorded temperature is strictly below
the 85°C safety threshold and the final throttle check is negative; the
reported `max_temp` is the maximum of the recorded series (0 for an empty
series) and `avg_temp` its arithmetic mean (0 for an empty series). -/
theorem C4_stability_verdict (nm : List Char) (aborted : Bool)
    (errs : List (List Char)) (temps : List ℚ) (thr : Bool) (dur : ℚ) :
    ((computeResult nm aborted errs temps thr dur).stable = true ↔
      (aborted = false ∧ errs = [] ∧
       (computeResult nm aborted errs temps thr dur).max_temp < 85 ∧ thr = false)) ∧
    (temps ≠ [] →
      (computeResult nm aborted errs temps thr dur).max_temp ∈ temps ∧
      (∀ t ∈ temps, t ≤ (computeResult nm aborted errs temps thr dur).max_temp) ∧
      (computeResult nm aborted errs temps thr dur).avg_temp * temps.length = temps.sum) ∧
    (temps = [] →
      (computeResult nm aborted errs temps thr dur).max_temp = 0 ∧
      (computeResult nm aborted errs temps thr dur).avg_temp = 0) := by
  refine ⟨?_, ?_, ?_⟩
  · simp only [computeResult, Bool.and_eq_true, Bool.not_eq_true',
      List.isEmpty_iff, decide_eq_true_eq]
    constructor
    · rintro ⟨⟨⟨ha, he⟩, hm⟩, ht⟩
      exact ⟨ha, he, hm, ht⟩
    · rintro ⟨ha, he, hm, ht⟩
      exact ⟨⟨⟨ha, he⟩, hm⟩, ht⟩
  · intro hne
    refine ⟨listMax_mem hne, listMax_ub, ?_⟩
    simp only [computeResult, listAvg, if_neg hne]
    have hlen0 : 0 < temps.length := List.length_pos.mpr hne
    have hlen : (temps.length : ℚ) ≠ 0 := Nat.cast_ne_zero.mpr (by omega)
    field_simp
  · intro hnil
    subst hnil
    simp [computeResult, listMax, listAvg]

/-- Witness for C4 at the series [80, 84] with no abort, errors or throttle:
a stable verdict with max 84 and mean 82. -/
theorem C4_stability_verdict_witness :
    ((computeResult (chars "stock") false [] [80, 84] false 1).stable = true ↔
      (false = false ∧ ([] : List (List Char)) = [] ∧
       (computeResult (chars "stock") false [] [80, 84] false 1).max_temp < 85 ∧
       false = false)) ∧
    (computeResult (chars "stock") false [] [80, 84] false 1).max_temp ∈
      ([80, 84] : List ℚ) ∧
    (computeResult (chars "stock") false [] [80, 84] false 1).avg_temp *
      (([80, 84] : List ℚ)).length = (([80, 84] : List ℚ)).sum := by
  have h := C4_stability_verdict (chars "stock") false [] [80, 84] false 1
  have h2 := h.2.1 (by decide)
  exact ⟨h.1, h2.1, h2.2.2⟩

/-! ### The monitoring worker (`SiliconTester._monitor_system`, lines 236-259)

One loop iteration polls the temperature, appends it to the series, aborts at
or above 90°C, scans the kernel log (which itself records an error line when
it returns true) and catches any exception by recording a monitoring error.
The iterations are modelled as a fold over a list of observations; an
observation describes what the environment delivered to one iteration. -/

inductive MonObs where
  /-- A full iteration: the polled temperature (`None`/`0.0` are falsy and
  skipped) and the error line found by `_check_system_errors`, if any. -/
  | poll (temp : Option ℚ) (sysErr : Option (List Char)) : MonObs
  /-- An iteration whose log scan raised after the temperature was
  processed: the exception is caught and recorded. -/
  | pollExn (temp : Option ℚ) (msg : List Char) : MonObs
  /-- An iteration that raised before the temperature was processed. -/
  | exn (msg : List Char) : MonObs

/-- The monitoring state shared with the orchestrator: the temperature
series, the error list and the abort flag (`_temps`, `_errors`,
`_test_aborted`). -/
structure MonState where
  temps : List ℚ
  errors : List (List Char)
  aborted : Bool
deriving DecidableEq, Repr

/-- The temperature-handling of one monitor iteration
(`if temp: ... if temp >= self.temp_abort: ...`). -/
def procTemp (st : MonState) : Option ℚ → MonState
  | none => st
  | some v =>
    if v ≠ 0 then
      if v ≥ 90 then
        { temps := st.temps ++ [v]
        , errors := st.errors ++ [chars "Temperature exceeded 90°C"]
        , aborted := true }
      else { st with temps := st.temps ++ [v] }
    else st

/-- One iteration of `_monitor_system`. -/
def monStep (st : MonState) : MonObs → MonState
  | .poll t se =>
    match se with
    | some line =>
      { procTemp st t with
          errors := (procTemp st t).errors ++ [chars "System error: " ++ line],
          aborted := true }
    | none => procTemp st t
  | .pollExn t msg =>
    { procTemp st t with
        errors := (procTemp st t).errors ++ [chars "Monitoring error: " ++ msg] }
  | .exn msg => { st with errors := st.errors ++ [chars "Monitoring error: " ++ msg] }

/-- The whole monitoring run for one profile test (the state is reset at the
start of `_test_profile`). -/
def monRun (os : List MonObs) : MonState := os.foldl monStep ⟨[], [], false⟩

/-- The temperature delivered to an iteration, if any. -/
def obsTemp : MonObs → Option ℚ
  | .poll t _ => t
  | .pollExn t _ => t
  | .exn _ => none

theorem procTemp_aborted_mono {st : MonState} (t : Option ℚ)
    (h : st.aborted = true) : (procTemp st t).aborted = true := by
  cases t with
  | none => exact h
  | some v =>
    simp only [procTemp]
    split_ifs <;> simp [h]

theorem monStep_aborted_mono {st : MonState} (o : MonObs)
    (h : st.aborted = true) : (monStep st o).aborted = true := by
  cases o with
  | poll t se =>
    cases se with
    | some line => rfl
    | none => exact procTemp_aborted_mono t h
  | pollExn t msg => exact procTemp_aborted_mono t h
  | exn msg => exact h

theorem procTemp_errors_sup (st : MonState) (t : Option ℚ) :
    ∃ es, (procTemp st t).errors = st.errors ++ es := by
  cases t with
  | none => exact ⟨[], by simp [procTemp]⟩
  | some v =>
    simp only [procTemp]
    split_ifs
    · exact ⟨[chars "Temperature exceeded 90°C"], rfl⟩
    · exact ⟨[], by simp⟩
    · exact ⟨[], by simp⟩

theorem monStep_errors_sup (st : MonState) (o : MonObs) :
    ∃ es, (monStep st o).errors = st.errors ++ es := by
  cases o with
  | poll t se =>
    obtain ⟨es, hes⟩ := procTemp_errors_sup st t
    cases se with
    | some line =>
      exact ⟨es ++ [chars "System error: " ++ line], by simp [monStep, hes]⟩
    | none => exact ⟨es, hes⟩
  | pollExn t msg =>
    obtain ⟨es, hes⟩ := procTemp_errors_sup st t
    exact ⟨es ++ [chars "Monitoring error: " ++ msg], by simp [monStep, hes]⟩
  | exn msg => exact ⟨[chars "Monitoring error: " ++ msg], rfl⟩

/-- An iteration that sees a temperature at or above the 90°C ceiling sets
the abort flag and records an error. -/
theorem monStep_high {st : MonState} {o : MonObs} {v : ℚ}
    (ht : obsTemp o = some v) (hv : (90:ℚ) ≤ v) :
    (monStep st o).aborted = true ∧ (monStep st o).errors ≠ [] := by
  have hproc : ∀ st' : MonState,
      (procTemp st' (some v)).aborted = true ∧ (procTemp st' (some v)).errors ≠ [] := by
    intro st'
    simp only [procTemp]
    rw [if_pos (by intro h0; rw [h0] at hv; norm_num at hv), if_pos hv]
    exact ⟨rfl, by simp⟩
  cases o with
  | poll t se =>
    cases ht
    cases se with
    | some line =>
      refine ⟨rfl, ?_⟩
      simp [monStep]
    | none => exact hproc st
  | pollExn t msg =>
    cases ht
    refine ⟨(hproc st).1, ?_⟩
    simp only [monStep]
    intro h
    exact (hproc st).2 (List.append_eq_nil.mp h).1
  | exn msg => simp [obsTemp] at ht

/-- If any iteration of the monitoring loop sees a temperature at or above
90°C, the final monitoring state is aborted with a nonempty error list. -/
theorem monRun_abort_of_high {os : List MonObs}
    (h : ∃ o ∈ os, ∃ v, obsTemp o = some v ∧ (90:ℚ) ≤ v) :
    (monRun os).aborted = true ∧ (monRun os).errors ≠ [] := by
  have main : ∀ (os : List MonObs) (st : MonState),
      (st.aborted = true ∧ st.errors ≠ []) ∨
        (∃ o ∈ os, ∃ v, obsTemp o = some v ∧ (90:ℚ) ≤ v) →
      ((os.foldl monStep st).aborted = true ∧ (os.foldl monStep st).errors ≠ []) := by
    intro os
    induction os with
    | nil =>
      intro st h
      rcases h with h | h
      · exact h
      · simp at h
    | cons o os ih =>
      intro st h
      rw [List.foldl_cons]
      rcases h with ⟨ha, he⟩ | ⟨o', ho', v, hv, h90⟩
      · apply ih
        left
        obtain ⟨es, hes⟩ := monStep_errors_sup st o
        exact ⟨monStep_aborted_mono o ha, by
          rw [hes]; intro hnil; exact he (List.append_eq_nil.mp hnil).1⟩
      · rcases List.mem_cons.mp ho' with rfl | ho2
        · apply ih
          left
          exact monStep_high hv h90
        · exact ih (monStep st o) (Or.inr ⟨o', ho2, v, hv, h90⟩)
  exact main os ⟨[], [], false⟩ (Or.inr h)

/-! ### One profile test (`SiliconTester._test_profile`, lines 149-234) -/

/-- What the environment delivers during one profile test: the monitoring
iterations, whether `stress-ng` failed to launch (and its message), the
final throttle-check verdict and the wall-clock duration. -/
structure TestEnv where
  obs : List MonObs
  stressFail : Option (List Char)
  throttled : Bool
  duration : ℚ

/-- `SiliconTester._test_profile`: apply the profile (an apply failure
yields a zero-duration failed result), run the stressor and the monitor, and
compute the result.  The interleaving between the stress-launch error and
the monitor's errors in the shared list is abstracted by putting the launch
error first; the claims depend only on whether the list is empty. -/
def test_profile (env : TestEnv) (p : OverclockProfile) (s : Sys) :
    StressTestResult × Sys :=
  match apply_profile p s with
  | (res, s') =>
    if res.success then
      (computeResult p.name (monRun env.obs).aborted
        ((match env.stressFail with
          | some e => [chars "Stress test failed: " ++ e]
          | none => []) ++ (monRun env.obs).errors)
        (monRun env.obs).temps env.throttled env.duration, s')
    else
      ({ profile_name := p.name, stable := false, max_temp := 0, avg_temp := 0,
         throttled := false, errors := [res.message], duration := 0 }, s')

/-- A profile test whose monitoring observations include a temperature at or
above 90°C always produces an unstable result (whether or not the apply
step succeeded). -/
theorem test_profile_high_unstable (env : TestEnv) (p : OverclockProfile) (s : Sys)
    (h : ∃ o ∈ env.obs, ∃ v, obsTemp o = some v ∧ (90:ℚ) ≤ v) :
    (test_profile env p s).1.stable = false := by
  unfold test_profile
  rcases happ : apply_profile p s with ⟨res, s'⟩
  by_cases hs : res.success = true
  · simp only [hs, if_true]
    have hab := (monRun_abort_of_high h).1
    simp [computeResult, hab]
  · simp only [Bool.not_eq_true] at hs
    simp [hs]

/-! ### Grading (`SiliconTester._calculate_grade`, lines 353-386) -/

/-- The fixed `grades` lookup table, with its `.get` default
`("D", "Below Average")`. -/
def gradeTable (i : Int) : List Char × List Char :=
  if i = -1 then (chars "D", chars "Below Average - Stock only")
  else if i = 0 then (chars "C", chars "Average - Mild overclock capable")
  else if i = 1 then (chars "B", chars "Good - Moderate overclock capable")
  else if i = 2 then (chars "A", chars "Excellent - Aggressive overclock capable")
  else if i = 3 then (chars "S", chars "Golden Sample - Extreme overclock capable")
  else if i = 4 then (chars "S+", chars "Exceptional - Maximum overclock achieved")
  else (chars "D", chars "Below Average")

/-- `SiliconTester._calculate_grade` (without the `_save_grade` file write):
grade from the table, recommended profile one rung below the highest pass
(or "stock"), name of the highest stable profile (or "none").  List indexing
uses a default; every call site passes an index in [-1, 4], where the
Python indexing is defined. -/
def calculate_grade (maxIdx : Int) (results : List StressTestResult) : SiliconGrade :=
  { grade := (gradeTable maxIdx).1
  , description := (gradeTable maxIdx).2
  , max_stable_profile :=
      if maxIdx ≥ 0 then (test_profiles.getD maxIdx.toNat stockProfile).name
      else chars "none"
  , recommended_profile :=
      if maxIdx > 0 then (test_profiles.getD (maxIdx - 1).toNat stockProfile).name
      else chars "stock"
  , test_results := results }

/-- Claim C3.  For every possible highest-passing ladder index, the grade is
the table value (-1→D, 0→C, 1→B, 2→A, 3→S, 4→S+) and the recommended
profile is the ladder profile one rung below the highest pass when the index
is positive, and "stock" otherwise. -/
theorem C3_grade_table (rs : List StressTestResult) :
    ((calculate_grade (-1) rs).grade = chars "D" ∧
     (calculate_grade (-1) rs).recommended_profile = chars "stock") ∧
    ((calculate_grade 0 rs).grade = chars "C" ∧
     (calculate_grade 0 rs).recommended_profile = chars "stock") ∧
    ((calculate_grade 1 rs).grade = chars "B" ∧
     (calculate_grade 1 rs).recommended_profile = (test_profiles.getD 0 stockProfile).name ∧
     (calculate_grade 1 rs).recommended_profile = chars "stock") ∧
    ((calculate_grade 2 rs).grade = chars "A" ∧
     (calculate_grade 2 rs).recommended_profile = (test_profiles.getD 1 stockProfile).name ∧
     (calculate_grade 2 rs).recommended_profile = chars "mild") ∧
    ((calculate_grade 3 rs).grade = chars "S" ∧
     (calculate_grade 3 rs).recommended_profile = (test_profiles.getD 2 stockProfile).name ∧
     (calculate_grade 3 rs).recommended_profile = chars "moderate") ∧
    ((calculate_grade 4 rs).grade = chars "S+" ∧
     (calculate_grade 4 rs).recommended_profile = (test_profiles.getD 3 stockProfile).name ∧
     (calculate_grade 4 rs).recommended_profile = chars "aggressive") := by
  refine ⟨⟨?_, ?_⟩, ⟨?_, ?_⟩, ⟨?_, ?_, ?_⟩, ⟨?_, ?_, ?_⟩, ⟨?_, ?_, ?_⟩, ⟨?_, ?_, ?_⟩⟩ <;> rfl

/-! ### The ladder loop and the orchestrator
(`SiliconTester.test_silicon_quality`, lines 104-147) -/

/-- The per-profile ladder loop of `test_silicon_quality`.  `tp` abstracts
`_test_profile` (index, profile, state ↦ result or uncaught exception, plus
the state after the call): append the result; when it is stable and not
throttled record the index as the new highest pass and continue, otherwise
break; an exception stops the loop and propagates. -/
def ladderAux
    (tp : Nat → OverclockProfile → Sys → (Except (List Char) StressTestResult) × Sys) :
    List OverclockProfile → Nat → Int → Sys →
    List StressTestResult × Int × Option (List Char) × Sys
  | [], _, m, s => ([], m, none, s)
  | p :: ps, idx, m, s =>
    match tp idx p s with
    | (.error e, s') => ([], m, some e, s')
    | (.ok r, s') =>
      if r.stable && !r.throttled then
        (r :: (ladderAux tp ps (idx + 1) idx s').1,
         (ladderAux tp ps (idx + 1) idx s').2)
      else ([r], m, none, s')

/-- The captured `original_settings` dictionary (`get_current_settings`
always populates all four keys, so the `.get` defaults of
`_restore_profile` are modelled as plain fields). -/
structure Settings where
  arm_freq : Int
  gpu_freq : Int
  over_voltage : Int
  over_voltage_delta : Int

/-- The synthetic profile built by `SiliconTester._restore_profile`
(lines 340-351) from the captured original settings. -/
def restoreProfile (o : Settings) : OverclockProfile :=
  { name := chars "original"
  , arm_freq := o.arm_freq
  , gpu_freq := o.gpu_freq
  , over_voltage := o.over_voltage
  , over_voltage_delta := o.over_voltage_delta
  , description := chars "Original settings" }

/-- `SiliconTester.test_silicon_quality`: back up the configuration, run the
ladder, and — in the `finally` block — apply the restore profile whether the
ladder completed, broke, or raised; then grade (or propagate the
exception). -/
def test_silicon_quality
    (tp : Nat → OverclockProfile → Sys → (Except (List Char) StressTestResult) × Sys)
    (original : Settings) (s : Sys) :
    (Except (List Char) SiliconGrade) × Sys :=
  match ladderAux tp test_profiles 0 (-1)
      { s with backups := s.backups ++ [s.config] } with
  | (rs, m, e, s') =>
    match e with
    | some err => (.error err, (apply_profile (restoreProfile original) s').2)
    | none => (.ok (calculate_grade m rs), (apply_profile (restoreProfile original) s').2)

theorem apply_profile_calls (p : OverclockProfile) (s : Sys) :
    ((apply_profile p s).2).calls = s.calls ++ [p] := by
  unfold apply_profile
  by_cases h : (validate_profile p).1 = true
  · simp [h]
  · simp only [Bool.not_eq_true] at h
    simp [h]

/-- Claim C1.  However the ladder ends — all profiles tested, a profile
failing, or `tp` raising at any point — the last `apply_profile` invocation
of a `test_silicon_quality` run is the restore profile built from the
captured original settings: the restoration runs before the call returns or
the exception propagates. -/
theorem C1_restoration_guarantee
    (tp : Nat → OverclockProfile → Sys → (Except (List Char) StressTestResult) × Sys)
    (original : Settings) (s : Sys) :
    ((test_silicon_quality tp original s).2).calls.getLast?
      = some (restoreProfile original) := by
  unfold test_silicon_quality
  rcases hlad : ladderAux tp test_profiles 0 (-1)
      { s with backups := s.backups ++ [s.config] } with ⟨rs, m, e, s'⟩
  cases e with
  | none => simp [apply_profile_calls, List.getLast?_concat]
  | some err => simp [apply_profile_calls, List.getLast?_concat]

/-! ### Ladder lemmas -/

theorem ladderAux_max
    (tp : Nat → OverclockProfile → Sys → (Except (List Char) StressTestResult) × Sys) :
    ∀ (ps : List OverclockProfile) (idx : Nat) (m : Int) (s : Sys),
    (ladderAux tp ps idx m s).2.1 = m ∨
    ∃ (j : Nat) (q : OverclockProfile) (s' : Sys) (r : StressTestResult) (s'' : Sys),
      ps.get? j = some q ∧ tp (idx + j) q s' = (.ok r, s'') ∧
      (r.stable && !r.throttled) = true ∧
      (ladderAux tp ps idx m s).2.1 = (idx : Int) + (j : Int) := by
  intro ps
  induction ps with
  | nil => intro idx m s; left; rfl
  | cons p ps ih =>
    intro idx m s
    rcases htp : tp idx p s with ⟨ex, s'⟩
    cases ex with
    | error e => left; simp [ladderAux, htp]
    | ok r =>
      by_cases hst : (r.stable && !r.throttled) = true
      · rcases ih (idx + 1) idx s' with h | ⟨j, q, s0, r0, s1, hq, htp0, hst0, hm⟩
        · right
          refine ⟨0, p, s, r, s', by simp, by rw [Nat.add_zero]; exact htp, hst, ?_⟩
          simp only [ladderAux, htp, hst, if_true]
          rw [h]
          push_cast
          ring
        · right
          refine ⟨j + 1, q, s0, r0, s1, by simpa using hq, ?_, hst0, ?_⟩
          · rw [show idx + (j + 1) = (idx + 1) + j by omega]
            exact htp0
          · simp only [ladderAux, htp, hst, if_true]
            rw [hm]
            push_cast
            ring
      · left
        simp [ladderAux, htp, hst]

theorem ladderAux_len
    (tp : Nat → OverclockProfile → Sys → (Except (List Char) StressTestResult) × Sys) :
    ∀ (ps : List OverclockProfile) (idx : Nat) (m : Int) (s : Sys) (j : Nat),
    (∀ q s' r s'', ps.get? j = some q → tp (idx + j) q s' = (.ok r, s'') →
      (r.stable && !r.throttled) = false) →
    (ladderAux tp ps idx m s).1.length ≤ j + 1 := by
  intro ps
  induction ps with
  | nil => intro idx m s j _; simp [ladderAux]
  | cons p ps ih =>
    intro idx m s j hfail
    rcases htp : tp idx p s with ⟨ex, s'⟩
    cases ex with
    | error e => simp [ladderAux, htp]
    | ok r =>
      by_cases hst : (r.stable && !r.throttled) = true
      · cases j with
        | zero =>
          exfalso
          have := hfail p s r s' (by simp) (by rw [Nat.add_zero]; exact htp)
          rw [hst] at this
          simp at this
        | succ j' =>
          simp only [ladderAux, htp, hst, if_true, List.length_cons]
          have := ih (idx + 1) idx s' j' (fun q s0 r0 s1 hq htp0 =>
            hfail q s0 r0 s1 (by simpa using hq)
              (by rw [show idx + (j' + 1) = (idx + 1) + j' by omega]; exact htp0))
          omega
      · simp [ladderAux, htp, hst]

theorem ladderAux_get
    (tp : Nat → OverclockProfile → Sys → (Except (List Char) StressTestResult) × Sys) :
    ∀ (ps : List OverclockProfile) (idx : Nat) (m : Int) (s : Sys) (j : Nat)
      (r : StressTestResult),
    (ladderAux tp ps idx m s).1.get? j = some r →
    ∃ q s' s'', ps.get? j = some q ∧ tp (idx + j) q s' = (.ok r, s'') := by
  intro ps
  induction ps with
  | nil => intro idx m s j r h; simp [ladderAux] at h
  | cons p ps ih =>
    intro idx m s j r h
    rcases htp : tp idx p s with ⟨ex, s'⟩
    cases ex with
    | error e => simp [ladderAux, htp] at h
    | ok r0 =>
      by_cases hst : (r0.stable && !r0.throttled) = true
      · simp only [ladderAux, htp, hst, if_true] at h
        cases j with
        | zero =>
          simp only [List.get?_cons_zero, Option.some.injEq] at h
          subst h
          exact ⟨p, s, s', by simp, by rw [Nat.add_zero]; exact htp⟩
        | succ j' =>
          simp only [List.get?_cons_succ] at h
          rcases ih (idx + 1) idx s' j' r h with ⟨q, s0, s1, hq, htp0⟩
          exact ⟨q, s0, s1, by simpa using hq,
            by rw [show idx + (j' + 1) = (idx + 1) + j' by omega]; exact htp0⟩
      · simp only [ladderAux, htp, hst, if_false, Bool.false_eq_true] at h
        cases j with
        | zero =>
          simp only [List.get?_cons_zero, Option.some.injEq] at h
          subst h
          exact ⟨p, s, s', by simp, by rw [Nat.add_zero]; exact htp⟩
        | succ j' => simp at h

/-! ### Claims C8 and C9 -/

/-- The concrete per-profile test of the silicon tester, as the ladder's
`tp`: `_test_profile` never raises here (its apply step catches internally);
the environment of slot `idx` drives the monitoring and throttle checks. -/
def envTp (envs : Nat → TestEnv) :
    Nat → OverclockProfile → Sys → (Except (List Char) StressTestResult) × Sys :=
  fun idx p s =>
    (Except.ok (test_profile (envs idx) p s).1, (test_profile (envs idx) p s).2)

theorem envTp_result {envs : Nat → TestEnv} {idx : Nat} {q : OverclockProfile}
    {s' s'' : Sys} {r : StressTestResult}
    (h : envTp envs idx q s' = (.ok r, s'')) :
    r = (test_profile (envs idx) q s').1 := by
  unfold envTp at h
  have := congrArg Prod.fst h
  simpa using this.symm

/-- Claim C8.  If, during the test of ladder profile `k`, the monitoring
loop observes a temperature at or above the 90°C abort ceiling, then the
ladder records at most `k+1` results (no subsequent, more aggressive profile
is ever tested) and the result recorded for profile `k` (if the ladder got
that far) has `stable = false`. -/
theorem C8_abort_halts_ladder (envs : Nat → TestEnv) (s : Sys) (k : Nat)
    (hk : k < 5)
    (ht : ∃ o ∈ (envs k).obs, ∃ v, obsTemp o = some v ∧ (90:ℚ) ≤ v) :
    (monRun (envs k).obs).aborted = true ∧
    (monRun (envs k).obs).errors ≠ [] ∧
    (ladderAux (envTp envs) test_profiles 0 (-1) s).1.length ≤ k + 1 ∧
    (∀ r, (ladderAux (envTp envs) test_profiles 0 (-1) s).1.get? k = some r →
      r.stable = false) := by
  obtain ⟨hab, herr⟩ := monRun_abort_of_high ht
  refine ⟨hab, herr, ?_, ?_⟩
  · apply ladderAux_len
    intro q s' r s'' _ htp
    have hr := envTp_result htp
    rw [hr, show (0:Nat) + k = k by omega,
      test_profile_high_unstable (envs k) q s' ht]
    simp
  · intro r hr
    rcases ladderAux_get (envTp envs) test_profiles 0 (-1) s k r hr with
      ⟨q, s', s'', _, htp⟩
    have := envTp_result htp
    rw [this, show (0:Nat) + k = k by omega]
    exact test_profile_high_unstable (envs k) q s' ht

/-- Witness for C8: a monitoring run whose single observation reads 95°C
during the test of the first ladder profile (stock).  The ladder records one
result, and it is unstable. -/
theorem C8_abort_halts_ladder_witness :
    (monRun [MonObs.poll (some 95) none]).aborted = true ∧
    (monRun [MonObs.poll (some 95) none]).errors ≠ [] ∧
    ((ladderAux (envTp (fun _ => ⟨[.poll (some 95) none], none, false, 1⟩))
        test_profiles 0 (-1) ⟨[], [], []⟩).1.length ≤ 0 + 1) ∧
    (∀ r, (ladderAux (envTp (fun _ => ⟨[.poll (some 95) none], none, false, 1⟩))
        test_profiles 0 (-1) ⟨[], [], []⟩).1.get? 0 = some r → r.stable = false) :=
  C8_abort_halts_ladder (fun _ => ⟨[.poll (some 95) none], none, false, 1⟩)
    ⟨[], [], []⟩ 0 (by omega)
    ⟨.poll (some 95) none, by simp, 95, rfl, by norm_num⟩

/-- The most aggressive ladder profile (`test_profiles[4]`). -/
def extremeProfile : OverclockProfile :=
  ⟨chars "extreme", 3200, 1100, 8, 100000, chars "Extreme overclock"⟩

theorem test_profiles_four : test_profiles.get? 4 = some extremeProfile := rfl

/-- Testing the extreme profile always fails at the apply step: its
`arm_freq = 3200` exceeds the validator's 3000 MHz cap, so the result is
unstable with duration 0, whatever the environment. -/
theorem test_profile_extreme (env : TestEnv) (s : Sys) :
    (test_profile env extremeProfile s).1.stable = false ∧
    (test_profile env extremeProfile s).1.duration = 0 := by
  unfold test_profile
  rcases happ : apply_profile extremeProfile s with ⟨res, s'⟩
  have hres : res.success = false := by
    have h : (apply_profile extremeProfile s).1.success = false := by
      simp [apply_profile, show (validate_profile extremeProfile).1 = false from by decide]
    rw [happ] at h
    exact h
  simp [hres]

theorem ladder_max_le_three (envs : Nat → TestEnv) (s : Sys) :
    (ladderAux (envTp envs) test_profiles 0 (-1) s).2.1 ≤ 3 := by
  rcases ladderAux_max (envTp envs) test_profiles 0 (-1) s with
    h | ⟨j, q, s', r, s'', hq, htp, hst, hm⟩
  · rw [h]; norm_num
  · have hj : j < 5 := by
      by_contra hj5
      push_neg at hj5
      rw [List.get?_eq_none.mpr (by simpa [test_profiles] using hj5)] at hq
      exact Option.noConfusion hq
    have hj4 : j ≠ 4 := by
      rintro rfl
      rw [test_profiles_four] at hq
      injection hq with hq2
      subst hq2
      have hr := envTp_result htp
      rw [hr, show (0:Nat) + 4 = 4 by omega,
        (test_profile_extreme (envs 4) s').1] at hst
      simp at hst
    rw [hm]
    have : j ≤ 3 := by omega
    push_cast
    omega

theorem gradeTable_ne_splus {m : Int} (hm : m ≠ 4) :
    (gradeTable m).1 ≠ chars "S+" := by
  unfold gradeTable
  split_ifs <;> decide

/-- Claim C9.  The extreme ladder profile (arm_freq 3200 MHz) is rejected by
the apply-path validator (capped at 3000 MHz), so a test of it is always
unstable with duration 0; consequently the highest stable index never
reaches 4 and `test_silicon_quality` never returns grade "S+". -/
theorem C9_extreme_never_passes (envs : Nat → TestEnv) (env' : TestEnv)
    (original : Settings) (s s0 : Sys) :
    ((test_profile env' extremeProfile s0).1.stable = false ∧
     (test_profile env' extremeProfile s0).1.duration = 0) ∧
    (ladderAux (envTp envs) test_profiles 0 (-1) s).2.1 ≤ 3 ∧
    (∀ g, (test_silicon_quality (envTp envs) original s).1 = Except.ok g →
      g.grade ≠ chars "S+") := by
  refine ⟨test_profile_extreme env' s0, ladder_max_le_three envs s, ?_⟩
  intro g hg
  unfold test_silicon_quality at hg
  rcases hlad : ladderAux (envTp envs) test_profiles 0 (-1)
      { s with backups := s.backups ++ [s.config] } with ⟨rs, m, e, s'⟩
  rw [hlad] at hg
  cases e with
  | some err => simp at hg
  | none =>
    simp only [Except.ok.injEq] at hg
    have hmax := ladder_max_le_three envs { s with backups := s.backups ++ [s.config] }
    rw [hlad] at hmax
    have hm3 : m ≤ 3 := by simpa using hmax
    rw [← hg]
    exact gradeTable_ne_splus (by omega)

/-- Witness for C9: a concrete environment (a throttled stock test on an
empty configuration). -/
theorem C9_extreme_never_passes_witness :
    ((test_profile ⟨[], none, true, 1⟩ extremeProfile ⟨[], [], []⟩).1.stable = false ∧
     (test_profile ⟨[], none, true, 1⟩ extremeProfile ⟨[], [], []⟩).1.duration = 0) ∧
    (ladderAux (envTp (fun _ => ⟨[], none, true, 1⟩)) test_profiles 0 (-1)
        ⟨[], [], []⟩).2.1 ≤ 3 :=
  ⟨(C9_extreme_never_passes (fun _ => ⟨[], none, true, 1⟩) ⟨[], none, true, 1⟩
      ⟨2400, 910, 0, 0⟩ ⟨[], [], []⟩ ⟨[], [], []⟩).1,
   (C9_extreme_never_passes (fun _ => ⟨[], none, true, 1⟩) ⟨[], none, true, 1⟩
      ⟨2400, 910, 0, 0⟩ ⟨[], [], []⟩ ⟨[], [], []⟩).2.1⟩
